import Mathlib

/-!
Shallow embedding of the task activity resolution engine of `the-machine`.

The repository contains two overlapping drafts of the engine:

* the tree-walk variant (`src/src-tauri/src/core/task_manager.rs`, with the
  data model duplicated in `src/src-tauri/src/lib.rs`): tasks carry only a
  parent/child hierarchy plus an `ordered` flag, and the active set is
  computed by a top-down tree walk (`collect_active_tasks`);
* the dependency-aware variant (`src/src-tauri/src/lib copy.rs`): tasks
  additionally carry explicit `predecessors` edges, and activity is decided
  from a memoized transitive closure (`collect_all_predecessors`,
  `is_task_active`, `get_active_tasks`).

Rust `HashMap<usize, _>` stores are embedded as association lists
`List (Nat × _)` with lookup/insert/remove; `HashSet<usize>` values are
embedded as duplicate-free `List Nat` built by membership-checking inserts.
Recursion through the store (which Rust performs on the heap) is embedded
with an explicit fuel parameter; `RRes.fuelOut` marks fuel exhaustion and is
proved unreachable where the code terminates.  A Rust `panic!` arising from
`Option::unwrap` on a missing map entry is embedded as `RRes.panicked`, and
`Result::Err` as `RRes.err`.
-/

/-- Result of an embedded Rust computation: normal return, `Result::Err`,
a panic (`unwrap` on a missing entry), or exhaustion of the embedding's
fuel (never produced by the real code; proved unreachable where needed). -/
inductive RRes (α : Type) where
  | ok : α → RRes α
  | err : String → RRes α
  | panicked : RRes α
  | fuelOut : RRes α
deriving DecidableEq

/-- Lookup in an association-list embedding of `HashMap<usize, α>`. -/
def lookupA {α : Type} : List (Nat × α) → Nat → Option α
  | [], _ => none
  | (k2, v) :: rest, k => if k2 = k then some v else lookupA rest k

/-- Insert/replace in an association-list embedding of `HashMap::insert`. -/
def insertA {α : Type} : List (Nat × α) → Nat → α → List (Nat × α)
  | [], k, v => [(k, v)]
  | (k2, v2) :: rest, k, v =>
    if k2 = k then (k, v) :: rest else (k2, v2) :: insertA rest k v

/-- Removal embedding `HashMap::remove`. -/
def eraseA {α : Type} : List (Nat × α) → Nat → List (Nat × α)
  | [], _ => []
  | (k2, v2) :: rest, k =>
    if k2 = k then eraseA rest k else (k2, v2) :: eraseA rest k

/-- The keys of an association list. -/
def keysA {α : Type} (m : List (Nat × α)) : List Nat :=
  m.map Prod.fst

theorem lookupA_insertA_self {α : Type} (m : List (Nat × α)) (k : Nat) (v : α) :
    lookupA (insertA m k v) k = some v := by
  induction m with
  | nil => simp [insertA, lookupA]
  | cons p rest ih =>
    by_cases h : p.1 = k
    · simp [insertA, h, lookupA]
    · simp [insertA, h, lookupA, ih]

theorem lookupA_insertA_ne {α : Type} (m : List (Nat × α)) {k k2 : Nat} (v : α)
    (h : k2 ≠ k) : lookupA (insertA m k v) k2 = lookupA m k2 := by
  have h2 : ¬ (k = k2) := fun hh => h hh.symm
  induction m with
  | nil => simp [insertA, lookupA, h2]
  | cons p rest ih =>
    by_cases hp : p.1 = k
    · subst hp
      have h3 : ¬ (p.1 = k2) := fun hh => h hh.symm
      simp [insertA, lookupA, h2, h3]
    · rw [insertA, if_neg hp, lookupA, lookupA, ih]

theorem lookupA_eraseA_self {α : Type} (m : List (Nat × α)) (k : Nat) :
    lookupA (eraseA m k) k = none := by
  induction m with
  | nil => simp [eraseA, lookupA]
  | cons p rest ih =>
    cases p with
    | mk k2 v2 =>
      by_cases h : k2 = k
      · simpa [eraseA, h] using ih
      · simpa [eraseA, h, lookupA] using ih

theorem lookupA_eraseA_ne {α : Type} (m : List (Nat × α)) {k k2 : Nat}
    (h : k2 ≠ k) : lookupA (eraseA m k) k2 = lookupA m k2 := by
  induction m with
  | nil => simp [eraseA, lookupA]
  | cons p rest ih =>
    cases p with
    | mk k3 v3 =>
      by_cases hp : k3 = k
      · have h3 : ¬ (k3 = k2) := by
          subst hp
          exact fun hh => h hh.symm
        rw [eraseA, if_pos hp, ih, lookupA, if_neg h3]
      · rw [eraseA, if_neg hp, lookupA, lookupA, ih]

theorem mem_of_lookupA {α : Type} {m : List (Nat × α)} {k : Nat} {v : α}
    (h : lookupA m k = some v) : (k, v) ∈ m := by
  induction m with
  | nil => simp [lookupA] at h
  | cons p rest ih =>
    by_cases hp : p.1 = k
    · rw [lookupA, if_pos hp] at h
      have hpv : p = (k, v) := by
        cases p
        simp only at hp
        cases h
        simp [hp]
      rw [hpv]
      exact List.mem_cons_self _ rest
    · rw [lookupA, if_neg hp] at h
      exact List.mem_cons_of_mem _ (ih h)

theorem lookupA_isSome_iff {α : Type} (m : List (Nat × α)) (k : Nat) :
    (lookupA m k).isSome = true ↔ k ∈ keysA m := by
  induction m with
  | nil => simp [lookupA, keysA]
  | cons p rest ih =>
    by_cases hp : p.1 = k
    · simp [lookupA, hp, keysA]
    · have h3 : ¬ (k = p.1) := fun hh => hp hh.symm
      rw [lookupA, if_neg hp]
      rw [keysA, List.map_cons, List.mem_cons]
      rw [ih]
      simp [keysA, h3]

theorem eraseA_sublist {α : Type} (m : List (Nat × α)) (k : Nat) :
    (eraseA m k).Sublist m := by
  induction m with
  | nil => simp [eraseA]
  | cons p rest ih =>
    cases p with
    | mk k2 v2 =>
      by_cases h : k2 = k
      · rw [eraseA, if_pos h]
        exact ih.cons _
      · rw [eraseA, if_neg h]
        exact ih.cons₂ _

theorem keysA_eraseA_sublist {α : Type} (m : List (Nat × α)) (k : Nat) :
    (keysA (eraseA m k)).Sublist (keysA m) :=
  (eraseA_sublist m k).map Prod.fst

theorem nodup_keysA_eraseA {α : Type} {m : List (Nat × α)} (k : Nat)
    (h : (keysA m).Nodup) : (keysA (eraseA m k)).Nodup :=
  (keysA_eraseA_sublist m k).nodup h

theorem eraseA_of_not_mem {α : Type} {m : List (Nat × α)} {k : Nat}
    (h : k ∉ keysA m) : eraseA m k = m := by
  induction m with
  | nil => simp [eraseA]
  | cons p rest ih =>
    cases p with
    | mk k2 v2 =>
      have h1 : ¬ (k2 = k) := by
        intro hk
        exact h (by simp [keysA, hk])
      have h2 : k ∉ keysA rest := by
        intro hk
        apply h
        simp only [keysA, List.map_cons, List.mem_cons]
        exact Or.inr (by simpa [keysA] using hk)
      rw [eraseA, if_neg h1, ih h2]

theorem length_eraseA_present {α : Type} {m : List (Nat × α)} {k : Nat} {v : α}
    (hn : (keysA m).Nodup) (h : lookupA m k = some v) :
    (eraseA m k).length + 1 = m.length := by
  induction m with
  | nil => simp [lookupA] at h
  | cons p rest ih =>
    have hncons : (p.1 :: keysA rest).Nodup := by simpa [keysA] using hn
    have hn0 := List.nodup_cons.mp hncons
    by_cases hp : p.1 = k
    · have hk : k ∉ keysA rest := hp ▸ hn0.1
      cases p with
      | mk k2 v2 =>
        rw [eraseA, if_pos hp, eraseA_of_not_mem hk]
        simp
    · rw [lookupA, if_neg hp] at h
      have hlen := ih hn0.2 h
      cases p with
      | mk k2 v2 =>
        simp only at hp
        rw [eraseA, if_neg hp]
        simpa using hlen

namespace TheMachine

/-- The task record of the tree-walk variant
(`core/task_manager.rs` `struct Task`, identical in `lib.rs`). -/
structure Task where
  id : Nat
  text : String
  completed : Bool
  ordered : Bool
  subtasks : List Nat
  parent : Option Nat
deriving DecidableEq

/-- `Task::new` of `core/task_manager.rs`: fresh incomplete task with the
requested `ordered` flag, no subtasks and no parent. -/
def Task.new (id : Nat) (text : String) (ordered : Bool) : Task :=
  { id := id, text := text, completed := false, ordered := ordered,
    subtasks := [], parent := none }

/-- `Task::new` of `lib.rs`: identical to the one in `core/task_manager.rs`
except that the body sets `ordered: true`, ignoring the `ordered` argument. -/
def libTaskNew (id : Nat) (text : String) (ordered : Bool) : Task :=
  { id := id, text := text, completed := false, ordered := true,
    subtasks := [], parent := none }

/-- The mutable state of `core/task_manager.rs` `TaskManager`
(the id-keyed task map, the root id list, and the id counter). -/
structure TaskManager where
  tasks : List (Nat × Task)
  root_tasks : List Nat
  next_id : Nat
deriving DecidableEq

/-- `TaskManager::add_task`: generate an id (incrementing the counter),
insert a fresh task, and append the id to the root list. -/
def TaskManager.add_task (tm : TaskManager) (text : String) (ordered : Bool) :
    Nat × TaskManager :=
  let id := tm.next_id
  (id, { tasks := insertA tm.tasks id (Task.new id text ordered),
         root_tasks := tm.root_tasks ++ [id],
         next_id := tm.next_id + 1 })

/-- `lib.rs` `TaskManager::add_task`: same shape as the core one but the
task is built with `lib.rs`'s `Task::new` (which hardcodes `ordered`). -/
def libAddTask (tm : TaskManager) (text : String) (ordered : Bool) :
    Nat × TaskManager :=
  let id := tm.next_id
  (id, { tasks := insertA tm.tasks id (libTaskNew id text ordered),
         root_tasks := tm.root_tasks ++ [id],
         next_id := tm.next_id + 1 })

/-- `core/task_manager.rs` `TaskManager::add_subtask`: the id is generated
(consuming the counter) before the parent lookup; on a missing parent the
call returns `Err` with the counter already incremented.  On success the
child (always built with `ordered = true` in this variant) gets
`parent = Some(parent_id)`, the parent's child list gets the new id
appended, and the child is inserted into the map. -/
def TaskManager.add_subtask (tm : TaskManager) (parent_id : Nat)
    (text : String) : RRes Nat × TaskManager :=
  let id := tm.next_id
  let tm1 : TaskManager := { tm with next_id := tm.next_id + 1 }
  match lookupA tm1.tasks parent_id with
  | none => (.err s!"Task with id: {parent_id} not found", tm1)
  | some p =>
    let subtask : Task := { Task.new id text true with parent := some parent_id }
    let p2 : Task := { p with subtasks := p.subtasks ++ [id] }
    (.ok id, { tm1 with tasks := insertA (insertA tm1.tasks parent_id p2) id subtask })

/-- The `HashSet` equality test done by `reorder_subtasks`: the two id
lists collect to the same set (duplicates and order are invisible). -/
def sameSet (a b : List Nat) : Bool :=
  a.all (fun x => decide (x ∈ b)) && b.all (fun x => decide (x ∈ a))

/-- `core/task_manager.rs` `TaskManager::reorder_subtasks`: missing parent
is `Err`; otherwise the new order is accepted iff its `HashSet` equals the
`HashSet` of the current child list, in which case it replaces the child
list verbatim. -/
def TaskManager.reorder_subtasks (tm : TaskManager) (parent_id : Nat)
    (new_order : List Nat) : RRes Unit × TaskManager :=
  match lookupA tm.tasks parent_id with
  | none => (.err s!"Parent task with id: {parent_id} not found", tm)
  | some p =>
    if sameSet p.subtasks new_order then
      (.ok (), { tm with
        tasks := insertA tm.tasks parent_id { p with subtasks := new_order } })
    else
      (.err "New order must contain the same subtasks", tm)

/-- The loop of `collect_active_tasks` for an ordered task: find the first
subtask id whose task is present in the map and incomplete, returning the
id together with the task (absent ids are skipped, as in the code). -/
def firstIncomplete (map : List (Nat × Task)) : List Nat → Option (Nat × Task)
  | [] => none
  | sid :: rest =>
    match lookupA map sid with
    | some s => if s.completed then firstIncomplete map rest else some (sid, s)
    | none => firstIncomplete map rest

/-- The loop of `collect_active_tasks` for an unordered task: all subtask
ids whose task is present and incomplete, in list order, with their tasks. -/
def incompletePresent (map : List (Nat × Task)) (subs : List Nat) :
    List (Nat × Task) :=
  subs.filterMap (fun sid =>
    match lookupA map sid with
    | some s => if s.completed then none else some (sid, s)
    | none => none)

/-- `core/task_manager.rs` `collect_active_tasks` (fuel-indexed embedding of
the heap recursion).  A completed task contributes nothing; a childless task
contributes itself; an ordered task recurses into the first present
incomplete child only; an unordered task recurses into every present
incomplete child; the task itself is appended exactly when no present child
was incomplete. -/
def collect_active_tasks : Nat → Task → List (Nat × Task) → List Task
  | 0, _, _ => []
  | fuel + 1, task, map =>
    if task.completed then []
    else if task.subtasks.isEmpty then [task]
    else if task.ordered then
      match firstIncomplete map task.subtasks with
      | some (_, s) => collect_active_tasks fuel s map
      | none => [task]
    else
      match incompletePresent map task.subtasks with
      | [] => [task]
      | l => l.flatMap (fun p => collect_active_tasks fuel p.2 map)

/-- `core/task_manager.rs` `TaskManager::get_active_tasks`: walk from each
root id present in the map; the fuel `tasks.length + 1` dominates the walk
depth on any store whose hierarchy is a forest. -/
def TaskManager.get_active_tasks (tm : TaskManager) : List Task :=
  tm.root_tasks.flatMap (fun rid =>
    match lookupA tm.tasks rid with
    | some rt => collect_active_tasks (tm.tasks.length + 1) rt tm.tasks
    | none => [])

theorem firstIncomplete_none {map : List (Nat × Task)} :
    ∀ {subs : List Nat}, firstIncomplete map subs = none →
      ∀ sid ∈ subs, ∀ s, lookupA map sid = some s → s.completed = true := by
  intro subs
  induction subs with
  | nil => intro _ sid hsid; simp at hsid
  | cons x rest ih =>
    intro h sid hsid s hs
    rw [firstIncomplete] at h
    cases hx : lookupA map x with
    | none =>
      rw [hx] at h
      rcases List.mem_cons.mp hsid with hl | hr
      · subst hl
        rw [hx] at hs
        cases hs
      · exact ih h sid hr s hs
    | some sx =>
      rw [hx] at h
      dsimp only at h
      by_cases hcx : sx.completed
      · rw [if_pos hcx] at h
        rcases List.mem_cons.mp hsid with hl | hr
        · subst hl
          rw [hx] at hs
          cases hs
          exact hcx
        · exact ih h sid hr s hs
      · rw [if_neg hcx] at h
        cases h

theorem firstIncomplete_some {map : List (Nat × Task)} :
    ∀ {subs : List Nat} {sid : Nat} {s : Task},
      firstIncomplete map subs = some (sid, s) →
      sid ∈ subs ∧ lookupA map sid = some s ∧ s.completed = false ∧
        ∃ pre post, subs = pre ++ sid :: post ∧
          ∀ x ∈ pre, ∀ sx, lookupA map x = some sx → sx.completed = true := by
  intro subs
  induction subs with
  | nil => intro sid s h; rw [firstIncomplete] at h; cases h
  | cons x rest ih =>
    intro sid s h
    rw [firstIncomplete] at h
    cases hx : lookupA map x with
    | none =>
      rw [hx] at h
      obtain ⟨h1, h2, h3, pre, post, h4, h5⟩ := ih h
      refine ⟨List.mem_cons_of_mem _ h1, h2, h3, x :: pre, post, by simp [h4], ?_⟩
      intro y hy sy hsy
      rcases List.mem_cons.mp hy with hl | hr
      · subst hl
        rw [hx] at hsy
        cases hsy
      · exact h5 y hr sy hsy
    | some sx =>
      rw [hx] at h
      dsimp only at h
      by_cases hcx : sx.completed
      · rw [if_pos hcx] at h
        obtain ⟨h1, h2, h3, pre, post, h4, h5⟩ := ih h
        refine ⟨List.mem_cons_of_mem _ h1, h2, h3, x :: pre, post, by simp [h4], ?_⟩
        intro y hy sy hsy
        rcases List.mem_cons.mp hy with hl | hr
        · subst hl
          rw [hx] at hsy
          cases hsy
          exact hcx
        · exact h5 y hr sy hsy
      · rw [if_neg hcx] at h
        cases h
        refine ⟨List.mem_cons_self _ _, hx, Bool.eq_false_iff.mpr hcx, [], rest,
          rfl, ?_⟩
        intro y hy
        simp at hy

theorem incompletePresent_mem {map : List (Nat × Task)} {subs : List Nat}
    {sid : Nat} {s : Task} (h : (sid, s) ∈ incompletePresent map subs) :
    sid ∈ subs ∧ lookupA map sid = some s ∧ s.completed = false := by
  rw [incompletePresent] at h
  obtain ⟨x, hx, hfx⟩ := List.mem_filterMap.mp h
  cases hlx : lookupA map x with
  | none => rw [hlx] at hfx; cases hfx
  | some sx =>
    rw [hlx] at hfx
    dsimp only at hfx
    by_cases hcx : sx.completed
    · rw [if_pos hcx] at hfx; cases hfx
    · rw [if_neg hcx] at hfx
      cases hfx
      exact ⟨hx, hlx, Bool.eq_false_iff.mpr hcx⟩

theorem incompletePresent_nil {map : List (Nat × Task)} {subs : List Nat}
    (h : incompletePresent map subs = []) :
    ∀ sid ∈ subs, ∀ s, lookupA map sid = some s → s.completed = true := by
  intro sid hsid s hs
  by_cases hc : s.completed
  · exact hc
  · exfalso
    have : (sid, s) ∈ incompletePresent map subs := by
      rw [incompletePresent]
      apply List.mem_filterMap.mpr
      refine ⟨sid, hsid, ?_⟩
      rw [hs]
      dsimp only
      rw [if_neg hc]
    rw [h] at this
    cases this

/-- Every task the tree walk reports active is incomplete and has all of
its present subtasks complete (the push conditions of the code). -/
theorem mem_collect_active_tasks :
    ∀ (fuel : Nat) (t : Task) (map : List (Nat × Task)) (u : Task),
      u ∈ collect_active_tasks fuel t map →
      u.completed = false ∧
        ∀ sid ∈ u.subtasks, ∀ s, lookupA map sid = some s →
          s.completed = true := by
  intro fuel
  induction fuel with
  | zero => intro t map u h; rw [collect_active_tasks] at h; cases h
  | succ fuel ih =>
    intro t map u h
    rw [collect_active_tasks] at h
    by_cases hc : t.completed
    · rw [if_pos hc] at h; cases h
    · rw [if_neg hc] at h
      by_cases he : t.subtasks.isEmpty
      · rw [if_pos he] at h
        rcases List.mem_singleton.mp h with rfl
        refine ⟨Bool.eq_false_iff.mpr hc, ?_⟩
        intro sid hsid
        rw [List.isEmpty_iff.mp he] at hsid
        cases hsid
      · rw [if_neg he] at h
        by_cases ho : t.ordered
        · rw [if_pos ho] at h
          cases hfi : firstIncomplete map t.subtasks with
          | none =>
            rw [hfi] at h
            rcases List.mem_singleton.mp h with rfl
            exact ⟨Bool.eq_false_iff.mpr hc, firstIncomplete_none hfi⟩
          | some p =>
            rw [hfi] at h
            cases p with
            | mk sid s => exact ih s map u h
        · rw [if_neg ho] at h
          cases hip : incompletePresent map t.subtasks with
          | nil =>
            rw [hip] at h
            rcases List.mem_singleton.mp h with rfl
            exact ⟨Bool.eq_false_iff.mpr hc, incompletePresent_nil hip⟩
          | cons q l =>
            rw [hip] at h
            obtain ⟨p, _, hp2⟩ := List.mem_flatMap.mp h
            exact ih p.2 map u hp2

/-- `SubtreeMem map t u`: the task record `u` lies in the subtree rooted at
the record `t`, following subtask ids through the map. -/
inductive SubtreeMem (map : List (Nat × Task)) : Task → Task → Prop
  | refl (t : Task) : SubtreeMem map t t
  | child (t : Task) (c : Nat) (tc u : Task) :
      c ∈ t.subtasks → lookupA map c = some tc → SubtreeMem map tc u →
      SubtreeMem map t u

/-- Every task the tree walk reports while started at `t` lies in `t`'s
subtree. -/
theorem subtreeMem_of_mem_collect :
    ∀ (fuel : Nat) (t : Task) (map : List (Nat × Task)) (u : Task),
      u ∈ collect_active_tasks fuel t map → SubtreeMem map t u := by
  intro fuel
  induction fuel with
  | zero => intro t map u h; rw [collect_active_tasks] at h; cases h
  | succ fuel ih =>
    intro t map u h
    rw [collect_active_tasks] at h
    by_cases hc : t.completed
    · rw [if_pos hc] at h; cases h
    · rw [if_neg hc] at h
      by_cases he : t.subtasks.isEmpty
      · rw [if_pos he] at h
        rcases List.mem_singleton.mp h with rfl
        exact SubtreeMem.refl _
      · rw [if_neg he] at h
        by_cases ho : t.ordered
        · rw [if_pos ho] at h
          cases hfi : firstIncomplete map t.subtasks with
          | none =>
            rw [hfi] at h
            rcases List.mem_singleton.mp h with rfl
            exact SubtreeMem.refl _
          | some p =>
            rw [hfi] at h
            cases p with
            | mk sid s =>
              obtain ⟨h1, h2, _⟩ := firstIncomplete_some hfi
              exact SubtreeMem.child t sid s u h1 h2 (ih s map u h)
        · rw [if_neg ho] at h
          cases hip : incompletePresent map t.subtasks with
          | nil =>
            rw [hip] at h
            rcases List.mem_singleton.mp h with rfl
            exact SubtreeMem.refl _
          | cons q l =>
            rw [hip] at h
            obtain ⟨p, hp1, hp2⟩ := List.mem_flatMap.mp h
            have hp1' : p ∈ incompletePresent map t.subtasks := by
              rw [hip]; exact hp1
            obtain ⟨h1, h2, _⟩ := incompletePresent_mem
              (show (p.1, p.2) ∈ incompletePresent map t.subtasks by
                simpa using hp1')
            exact SubtreeMem.child t p.1 p.2 u h1 h2 (ih p.2 map u hp2)

/-- C1 (amended, tree-walk half): a task with a present incomplete subtask
is never contained in the tree-walk activity query's result. -/
theorem tree_walk_active_excludes_blocked_parent
    (tm : TaskManager) (T : Task) (sid : Nat) (s : Task)
    (h1 : sid ∈ T.subtasks) (h2 : lookupA tm.tasks sid = some s)
    (h3 : s.completed = false) : T ∉ tm.get_active_tasks := by
  intro hT
  rw [TaskManager.get_active_tasks] at hT
  obtain ⟨rid, _, hmem⟩ := List.mem_flatMap.mp hT
  cases hrt : lookupA tm.tasks rid with
  | none => rw [hrt] at hmem; cases hmem
  | some rt =>
    rw [hrt] at hmem
    obtain ⟨_, hall⟩ := mem_collect_active_tasks _ rt tm.tasks T hmem
    have := hall sid h1 s h2
    rw [h3] at this
    cases this

/-- Store used by the witness of the tree-walk half of C1: root task 1 is
incomplete and has the incomplete subtask 2. -/
def c1Map : List (Nat × Task) :=
  [(1, { id := 1, text := "parent", completed := false, ordered := true,
         subtasks := [2], parent := none }),
   (2, { id := 2, text := "child", completed := false, ordered := true,
         subtasks := [], parent := some 1 })]

/-- The tree-walk task manager of the C1 witness. -/
def c1TM : TaskManager :=
  { tasks := c1Map, root_tasks := [1], next_id := 3 }

/-- The parent task of the C1 tree-walk witness. -/
def c1P : Task :=
  { id := 1, text := "parent", completed := false, ordered := true,
    subtasks := [2], parent := none }

/-- The incomplete child task of the C1 tree-walk witness. -/
def c1S : Task :=
  { id := 2, text := "child", completed := false, ordered := true,
    subtasks := [], parent := some 1 }

/-- Witness for the tree-walk half of C1 at a concrete store. -/
theorem tree_walk_active_excludes_blocked_parent_witness :
    (2 ∈ c1P.subtasks ∧ lookupA c1TM.tasks 2 = some c1S ∧
      c1S.completed = false) ∧
    c1P ∉ c1TM.get_active_tasks :=
  ⟨⟨by decide, by decide, by decide⟩,
   tree_walk_active_excludes_blocked_parent c1TM c1P 2 c1S (by decide)
     (by decide) (by decide)⟩

/-- C4: for an ordered incomplete parent whose child scan finds a first
present incomplete child `c`, the walk's contribution is exactly the walk
of `c`; everything reported lies in `c`'s subtree (so later children and
their subtrees contribute nothing), and all children before `c` in the
parent's order are complete wherever present. -/
theorem ordered_parent_first_incomplete_child
    (map : List (Nat × Task)) (P : Task) (fuel sid : Nat) (c : Task)
    (ho : P.ordered = true) (hc : P.completed = false)
    (hfi : firstIncomplete map P.subtasks = some (sid, c)) :
    collect_active_tasks (fuel + 1) P map = collect_active_tasks fuel c map ∧
    (∀ u ∈ collect_active_tasks (fuel + 1) P map, SubtreeMem map c u) ∧
    (∀ u, ¬ SubtreeMem map c u → u ∉ collect_active_tasks (fuel + 1) P map) ∧
    (∃ pre post, P.subtasks = pre ++ sid :: post ∧
      ∀ x ∈ pre, ∀ sx, lookupA map x = some sx → sx.completed = true) := by
  obtain ⟨h1, _, _, hpre⟩ := firstIncomplete_some hfi
  have hne : ¬ P.subtasks.isEmpty := by
    cases hs : P.subtasks with
    | nil => rw [hs] at h1; cases h1
    | cons a l => simp [hs]
  have heq : collect_active_tasks (fuel + 1) P map =
      collect_active_tasks fuel c map := by
    rw [collect_active_tasks, if_neg (by rw [hc]; exact Bool.false_ne_true),
      if_neg hne, if_pos ho, hfi]
  refine ⟨heq, ?_, ?_, hpre⟩
  · intro u hu
    rw [heq] at hu
    exact subtreeMem_of_mem_collect fuel c map u hu
  · intro u hnu hu
    rw [heq] at hu
    exact hnu (subtreeMem_of_mem_collect fuel c map u hu)

/-- Store of the C4 witness: ordered parent 1 with children 2 (complete)
and 3 (incomplete); the walk contributes exactly child 3's subtree. -/
def c4Map : List (Nat × Task) :=
  [(1, { id := 1, text := "P", completed := false, ordered := true,
         subtasks := [2, 3], parent := none }),
   (2, { id := 2, text := "done", completed := true, ordered := true,
         subtasks := [], parent := some 1 }),
   (3, { id := 3, text := "todo", completed := false, ordered := true,
         subtasks := [], parent := some 1 })]

/-- The parent task of the C4 witness. -/
def c4P : Task :=
  { id := 1, text := "P", completed := false, ordered := true,
    subtasks := [2, 3], parent := none }

/-- The first present incomplete child of the C4 witness. -/
def c4C : Task :=
  { id := 3, text := "todo", completed := false, ordered := true,
    subtasks := [], parent := some 1 }

/-- Witness for C4 at a concrete store. -/
theorem ordered_parent_first_incomplete_child_witness :
    (c4P.ordered = true ∧ c4P.completed = false ∧
     firstIncomplete c4Map c4P.subtasks = some (3, c4C)) ∧
    collect_active_tasks 3 c4P c4Map = collect_active_tasks 2 c4C c4Map :=
  ⟨⟨by decide, by decide, by decide⟩,
   (ordered_parent_first_incomplete_child c4Map c4P 2 3 c4C (by decide)
     (by decide) (by decide)).1⟩

theorem sameSet_iff (a b : List Nat) :
    sameSet a b = true ↔ ∀ x : Nat, x ∈ a ↔ x ∈ b := by
  rw [sameSet]
  simp only [Bool.and_eq_true, List.all_eq_true, decide_eq_true_eq]
  constructor
  · rintro ⟨h1, h2⟩ x
    exact ⟨fun hx => h1 x hx, fun hx => h2 x hx⟩
  · intro h
    exact ⟨fun x hx => (h x).mp hx, fun x hx => (h x).mpr hx⟩

/-- C2 (amended): `reorder_subtasks` fails with not-found on a missing
parent; on a present parent it succeeds exactly when the new order has the
same id set as the current child list (`HashSet` equality: duplicates and
multiplicities are invisible), in which case the child list is replaced
verbatim and nothing else changes; otherwise it fails with the
same-subtasks error and changes nothing. -/
theorem reorder_subtasks_spec (tm : TaskManager) (pid : Nat)
    (order : List Nat) :
    (lookupA tm.tasks pid = none →
      tm.reorder_subtasks pid order =
        (.err s!"Parent task with id: {pid} not found", tm)) ∧
    (∀ p, lookupA tm.tasks pid = some p →
      (sameSet p.subtasks order = true ↔ ∀ x : Nat, x ∈ p.subtasks ↔ x ∈ order) ∧
      (sameSet p.subtasks order = true →
        ∃ tm2, tm.reorder_subtasks pid order = (.ok (), tm2) ∧
          lookupA tm2.tasks pid = some { p with subtasks := order } ∧
          (∀ k, k ≠ pid → lookupA tm2.tasks k = lookupA tm.tasks k) ∧
          tm2.root_tasks = tm.root_tasks ∧ tm2.next_id = tm.next_id) ∧
      (sameSet p.subtasks order = false →
        tm.reorder_subtasks pid order =
          (.err "New order must contain the same subtasks", tm))) := by
  constructor
  · intro h
    rw [TaskManager.reorder_subtasks, h]
  · intro p hp
    refine ⟨sameSet_iff p.subtasks order, ?_, ?_⟩
    · intro hss
      refine ⟨{ tm with tasks := insertA tm.tasks pid { p with subtasks := order } },
        ?_, ?_, ?_, rfl, rfl⟩
      · rw [TaskManager.reorder_subtasks, hp]
        dsimp only
        rw [if_pos hss]
      · exact lookupA_insertA_self _ _ _
      · intro k hk
        exact lookupA_insertA_ne _ _ hk
    · intro hss
      rw [TaskManager.reorder_subtasks, hp]
      dsimp only
      rw [if_neg (by rw [hss]; exact Bool.false_ne_true)]

/-- Store of the C2 counterexample and witness: task 1 has children
`[2, 3]`. -/
def c2TM : TaskManager :=
  { tasks :=
      [(1, { id := 1, text := "parent", completed := false, ordered := true,
             subtasks := [2, 3], parent := none }),
       (2, { id := 2, text := "a", completed := false, ordered := true,
             subtasks := [], parent := some 1 }),
       (3, { id := 3, text := "b", completed := false, ordered := true,
             subtasks := [], parent := some 1 })],
    root_tasks := [1], next_id := 4 }

/-- C2 counterexample to the claim as stated: `[2, 2, 3]` is not a
permutation of the child list `[2, 3]`, yet `reorder_subtasks` accepts it
(the `HashSet` comparison cannot see the duplicate) and installs the
duplicated list as the new child list. -/
theorem reorder_subtasks_accepts_duplicates :
    ¬ List.Perm [2, 2, 3] ([2, 3] : List Nat) ∧
    (c2TM.reorder_subtasks 1 [2, 2, 3]).1 = .ok () ∧
    lookupA (c2TM.reorder_subtasks 1 [2, 2, 3]).2.tasks 1 =
      some { id := 1, text := "parent", completed := false, ordered := true,
             subtasks := [2, 2, 3], parent := none } := by
  refine ⟨?_, by decide, by decide⟩
  intro h
  have := h.length_eq
  simp at this

/-- Witness for the amended C2 at a concrete store: the genuine
permutation `[3, 2]` of `[2, 3]` is accepted and installed. -/
theorem reorder_subtasks_spec_witness :
    (lookupA c2TM.tasks 1 =
      some { id := 1, text := "parent", completed := false, ordered := true,
             subtasks := [2, 3], parent := none } ∧
     sameSet [2, 3] [3, 2] = true) ∧
    ∃ tm2, c2TM.reorder_subtasks 1 [3, 2] = (.ok (), tm2) ∧
      lookupA tm2.tasks 1 =
        some { id := 1, text := "parent", completed := false, ordered := true,
               subtasks := [3, 2], parent := none } ∧
      (∀ k, k ≠ 1 → lookupA tm2.tasks k = lookupA c2TM.tasks k) ∧
      tm2.root_tasks = c2TM.root_tasks ∧ tm2.next_id = c2TM.next_id :=
  ⟨⟨by decide, by decide⟩,
   ((reorder_subtasks_spec c2TM 1 [3, 2]).2
      { id := 1, text := "parent", completed := false, ordered := true,
        subtasks := [2, 3], parent := none } (by decide)).2.1 (by decide)⟩

/-- The empty manager used to evaluate `lib.rs`'s `add_task`. -/
def c3TM0 : TaskManager := { tasks := [], root_tasks := [], next_id := 1 }

/-- C3: evaluating `lib.rs`'s `add_task` at the failing input
`("x", false)`.  The created task's `ordered` flag is `true` even though
the caller passed `false`, because `lib.rs`'s `Task::new` hardcodes
`ordered: true`; the core variant's `Task::new` would have stored
`false`. -/
theorem lib_add_task_ignores_ordered_argument :
    (libAddTask c3TM0 "x" false).1 = 1 ∧
    lookupA (libAddTask c3TM0 "x" false).2.tasks 1 =
      some { id := 1, text := "x", completed := false, ordered := true,
             subtasks := [], parent := none } ∧
    libTaskNew 1 "x" false ≠ Task.new 1 "x" false := by
  refine ⟨by decide, by decide, ?_⟩
  intro h
  have : (libTaskNew 1 "x" false).ordered = (Task.new 1 "x" false).ordered := by
    rw [h]
  simp [libTaskNew, Task.new] at this

/-- C10: `add_subtask` on an absent parent id returns the not-found error
with the task map and root list untouched, but the id counter incremented:
the failed call permanently consumes an id. -/
theorem add_subtask_missing_parent_consumes_id (tm : TaskManager) (pid : Nat)
    (text : String) (h : lookupA tm.tasks pid = none) :
    tm.add_subtask pid text =
      (.err s!"Task with id: {pid} not found",
       { tasks := tm.tasks, root_tasks := tm.root_tasks,
         next_id := tm.next_id + 1 }) := by
  rw [TaskManager.add_subtask]
  dsimp only
  rw [h]

/-- Witness for C10 at a concrete store. -/
theorem add_subtask_missing_parent_consumes_id_witness :
    lookupA c3TM0.tasks 5 = none ∧
    c3TM0.add_subtask 5 "orphan" =
      (.err "Task with id: 5 not found",
       { tasks := [], root_tasks := [], next_id := 2 }) := by
  constructor
  · decide
  · have := add_subtask_missing_parent_consumes_id c3TM0 5 "orphan" (by decide)
    simpa [c3TM0] using this

/-- The task record of the dependency-aware variant (`lib copy.rs`
`struct Task`): the tree-walk record extended with `predecessors`. -/
structure DTask where
  id : Nat
  text : String
  completed : Bool
  ordered : Bool
  subtasks : List Nat
  predecessors : List Nat
  parent : Option Nat
deriving DecidableEq

/-- `lib copy.rs` `Task::new`. -/
def DTask.new (id : Nat) (text : String) (ordered : Bool) : DTask :=
  { id := id, text := text, completed := false, ordered := ordered,
    subtasks := [], predecessors := [], parent := none }

/-- The mutable state of `lib copy.rs` `TaskManager`: the task map, the id
counter, the memoized dependency closure, and its dirty flag.  (This
variant keeps no root list.) -/
structure DTaskManager where
  tasks : List (Nat × DTask)
  next_id : Nat
  dependency_cache : List (Nat × List Nat)
  cache_dirty : Bool
deriving DecidableEq

/-- `lib copy.rs` `TaskManager::add_subtask`: the id is generated before
the parent lookup.  On success the child inherits the parent's `ordered`
flag, gets `parent = Some(parent_id)`, gets as predecessors the parent's
previously-last child (only when the parent is ordered and had one)
followed by all of the parent's own predecessors, and is appended to the
parent's child list; the cache is marked dirty. -/
def DTaskManager.add_subtask (tm : DTaskManager) (parent_id : Nat)
    (text : String) : RRes Nat × DTaskManager :=
  let id := tm.next_id
  let tm1 : DTaskManager := { tm with next_id := tm.next_id + 1 }
  match lookupA tm1.tasks parent_id with
  | none => (.err s!"Task with id: {parent_id} not found", tm1)
  | some p =>
    let sub : DTask :=
      { DTask.new id text true with
          ordered := p.ordered,
          parent := some parent_id,
          predecessors :=
            (if p.ordered then p.subtasks.getLast?.toList else []) ++
              p.predecessors }
    let p2 : DTask := { p with subtasks := p.subtasks ++ [id] }
    (.ok id,
     { tm1 with
         tasks := insertA (insertA tm1.tasks parent_id p2) id sub,
         cache_dirty := true })

/-- The `subtask_parents` map built at the top of `set_ordered_subtasks`
and `remove_subtasks_predecessors`: each listed subtask id mapped to its
task's parent field; a missing subtask makes the Rust code panic. -/
def subtaskParents (map : List (Nat × DTask)) :
    List Nat → Option (List (Nat × Option Nat))
  | [] => some []
  | sid :: rest =>
    match lookupA map sid with
    | none => none
    | some t => (subtaskParents map rest).map (fun sp => (sid, t.parent) :: sp)

/-- `subtask_parents.get(&pid).cloned().flatten()` of the Rust code. -/
def flatLookup (sp : List (Nat × Option Nat)) (pid : Nat) : Option Nat :=
  match lookupA sp pid with
  | some p => p
  | none => none

/-- The predecessor entry contributed by a previous sibling (`if i > 0`,
push `subtasks[i - 1]`). -/
def prevEntry : Option Nat → List Nat
  | some p => [p]
  | none => []

/-- The indexed loop of `set_ordered_subtasks`: rewrite each listed
subtask's predecessors, dropping entries whose recorded parent equals the
subtask's own parent and then appending the previous listed subtask (for
every position after the first). -/
def setOrderedGo (sp : List (Nat × Option Nat)) :
    List (Nat × DTask) → Option Nat → List Nat →
      RRes Unit × List (Nat × DTask)
  | map, _, [] => (.ok (), map)
  | map, prev, sid :: rest =>
    match lookupA map sid with
    | none => (.panicked, map)
    | some cur =>
      setOrderedGo sp
        (insertA map sid { cur with predecessors :=
          (cur.predecessors.filter
            (fun pid => decide (flatLookup sp pid ≠ cur.parent)) ++
            prevEntry prev) })
        (some sid) rest

/-- `lib copy.rs` `set_ordered_subtasks`. -/
def set_ordered_subtasks (map : List (Nat × DTask)) (subs : List Nat) :
    RRes Unit × List (Nat × DTask) :=
  match subtaskParents map subs with
  | none => (.panicked, map)
  | some sp => setOrderedGo sp map none subs

/-- The loop of `remove_subtasks_predecessors`: same filter as
`setOrderedGo` but no chain entry is appended. -/
def removePredsGo (sp : List (Nat × Option Nat)) :
    List (Nat × DTask) → List Nat → RRes Unit × List (Nat × DTask)
  | map, [] => (.ok (), map)
  | map, sid :: rest =>
    match lookupA map sid with
    | none => (.panicked, map)
    | some cur =>
      let newPreds := cur.predecessors.filter
        (fun pid => decide (flatLookup sp pid ≠ cur.parent))
      removePredsGo sp (insertA map sid { cur with predecessors := newPreds })
        rest

/-- `lib copy.rs` `remove_subtasks_predecessors`. -/
def remove_subtasks_predecessors (map : List (Nat × DTask))
    (subs : List Nat) : RRes Unit × List (Nat × DTask) :=
  match subtaskParents map subs with
  | none => (.panicked, map)
  | some sp => removePredsGo sp map subs

/-- `lib copy.rs` `TaskManager::toggle_ordered`: flip the flag, then
rebuild (now ordered) or strip (now unordered) the same-parent predecessor
entries of the direct children, and mark the cache dirty. -/
def DTaskManager.toggle_ordered (tm : DTaskManager) (id : Nat) :
    RRes Unit × DTaskManager :=
  match lookupA tm.tasks id with
  | none => (.err s!"Task with id: {id} not found", tm)
  | some t =>
    let newOrdered := !t.ordered
    let map1 := insertA tm.tasks id { t with ordered := newOrdered }
    match (if newOrdered then set_ordered_subtasks map1 t.subtasks
           else remove_subtasks_predecessors map1 t.subtasks) with
    | (.ok _, map2) =>
      (.ok (), { tm with tasks := map2, cache_dirty := true })
    | (.err m, map2) => (.err m, { tm with tasks := map2 })
    | (.panicked, map2) => (.panicked, { tm with tasks := map2 })
    | (.fuelOut, map2) => (.fuelOut, { tm with tasks := map2 })

/-- `HashSet::insert` on the closure accumulator: append if absent. -/
def insertSet (s : List Nat) (x : Nat) : List Nat :=
  if x ∈ s then s else s ++ [x]

/-- `HashSet::extend` on the closure accumulator. -/
def extendSet (s : List Nat) (xs : List Nat) : List Nat :=
  xs.foldl insertSet s

/-- The per-computation state threaded through
`collect_all_predecessors`: the visited set and the memo cache. -/
structure PredState where
  visited : List Nat
  cache : List (Nat × List Nat)
deriving DecidableEq

/-- A loop of `collect_all_predecessors` over a list of ids (used both for
the explicit predecessors and for the preceding siblings): insert the id
into the accumulator, recurse on it, and extend the accumulator with the
result. -/
def processPredIds (rec : Nat → PredState → RRes (List Nat) × PredState) :
    List Nat → List Nat → PredState → RRes (List Nat) × PredState
  | [], acc, st => (.ok acc, st)
  | pid :: rest, acc, st =>
    match rec pid st with
    | (.ok ps, st2) =>
      processPredIds rec rest (extendSet (insertSet acc pid) ps) st2
    | (.err m, st2) => (.err m, st2)
    | (.panicked, st2) => (.panicked, st2)
    | (.fuelOut, st2) => (.fuelOut, st2)

/-- First index of an id in a child list (`Iterator::position`). -/
def positionOf : List Nat → Nat → Option Nat
  | [], _ => none
  | x :: rest, t =>
    if x = t then some 0 else (positionOf rest t).map (fun i => i + 1)

/-- `lib copy.rs` `collect_all_predecessors` (fuel-indexed embedding):
return the memoized closure if cached; return the empty set if the id was
already visited (cycle guard); otherwise mark the id visited, look the task
up (`unwrap`: a dangling id panics), then accumulate the explicit
predecessors with their closures, the parent with its closure, and — for an
ordered parent — every preceding sibling with its closure; finally memoize
and return. -/
def collect_all_predecessors :
    Nat → Nat → List (Nat × DTask) → PredState →
      RRes (List Nat) × PredState
  | 0, _, _, st => (.fuelOut, st)
  | fuel + 1, tid, map, st =>
    match lookupA st.cache tid with
    | some ps => (.ok ps, st)
    | none =>
      if tid ∈ st.visited then (.ok [], st)
      else
        let st1 : PredState := { st with visited := st.visited ++ [tid] }
        match lookupA map tid with
        | none => (.panicked, st1)
        | some task =>
          match processPredIds
              (fun i s => collect_all_predecessors fuel i map s)
              task.predecessors [] st1 with
          | (.ok acc1, st2) =>
            match task.parent with
            | none =>
              (.ok acc1, { st2 with cache := insertA st2.cache tid acc1 })
            | some pid =>
              match collect_all_predecessors fuel pid map st2 with
              | (.ok ps, st3) =>
                let acc2 := extendSet (insertSet acc1 pid) ps
                match lookupA map pid with
                | none => (.panicked, st3)
                | some ptask =>
                  if ptask.ordered then
                    match positionOf ptask.subtasks tid with
                    | some pos =>
                      match processPredIds
                          (fun i s => collect_all_predecessors fuel i map s)
                          (ptask.subtasks.take pos) acc2 st3 with
                      | (.ok acc3, st4) =>
                        (.ok acc3,
                         { st4 with cache := insertA st4.cache tid acc3 })
                      | (.err m, st4) => (.err m, st4)
                      | (.panicked, st4) => (.panicked, st4)
                      | (.fuelOut, st4) => (.fuelOut, st4)
                    | none =>
                      (.ok acc2,
                       { st3 with cache := insertA st3.cache tid acc2 })
                  else
                    (.ok acc2,
                     { st3 with cache := insertA st3.cache tid acc2 })
              | (.err m, st3) => (.err m, st3)
              | (.panicked, st3) => (.panicked, st3)
              | (.fuelOut, st3) => (.fuelOut, st3)
          | (.err m, st2) => (.err m, st2)
          | (.panicked, st2) => (.panicked, st2)
          | (.fuelOut, st2) => (.fuelOut, st2)

/-- Every id that occurs anywhere in the store: keys, predecessor lists,
child lists and parent fields.  The recursion of
`collect_all_predecessors` only ever moves between these ids. -/
def idUniverse (map : List (Nat × DTask)) : List Nat :=
  (map.flatMap (fun p =>
    p.1 :: (p.2.predecessors ++ p.2.subtasks ++ p.2.parent.toList))).dedup

/-- Fuel that dominates the recursion depth of
`collect_all_predecessors` on `map`, whatever the start id and state. -/
def predFuel (map : List (Nat × DTask)) : Nat := (idUniverse map).length + 1

/-- The key loop of `build_dependency_cache`: one closure computation per
key, each with a fresh visited set, all sharing the growing cache. -/
def buildCacheGo (map : List (Nat × DTask)) (fuel : Nat) :
    List Nat → List (Nat × List Nat) → RRes (List (Nat × List Nat))
  | [], cache => .ok cache
  | tid :: rest, cache =>
    match collect_all_predecessors fuel tid map
        { visited := [], cache := cache } with
    | (.ok ps, st) => buildCacheGo map fuel rest (insertA st.cache tid ps)
    | (.err m, _) => .err m
    | (.panicked, _) => .panicked
    | (.fuelOut, _) => .fuelOut

/-- `lib copy.rs` `build_dependency_cache`: no-op when clean; otherwise
clear the cache and recompute the closure of every key. -/
def DTaskManager.build_dependency_cache (tm : DTaskManager) :
    RRes Unit × DTaskManager :=
  if tm.cache_dirty = false then (.ok (), tm)
  else
    match buildCacheGo tm.tasks (predFuel tm.tasks) (keysA tm.tasks) [] with
    | .ok cache =>
      (.ok (), { tm with dependency_cache := cache, cache_dirty := false })
    | .err m => (.err m, tm)
    | .panicked => (.panicked, tm)
    | .fuelOut => (.fuelOut, tm)

/-- The predecessor-completion loop of `is_task_active`: `unwrap` each
predecessor (a dangling id panics) and demand it be complete. -/
def checkPredsComplete (map : List (Nat × DTask)) : List Nat → RRes Bool
  | [] => .ok true
  | pid :: rest =>
    match lookupA map pid with
    | none => .panicked
    | some p => if p.completed then checkPredsComplete map rest else .ok false

/-- `lib copy.rs` `is_task_active`: rebuild the cache if dirty, `unwrap`
the task (absent id panics), report inactive if completed, otherwise
`unwrap` the cached closure and require every predecessor complete. -/
def DTaskManager.is_task_active (tm : DTaskManager) (tid : Nat) :
    RRes Bool × DTaskManager :=
  match tm.build_dependency_cache with
  | (.ok _, tm1) =>
    match lookupA tm1.tasks tid with
    | none => (.panicked, tm1)
    | some task =>
      if task.completed then (.ok false, tm1)
      else
        match lookupA tm1.dependency_cache tid with
        | none => (.panicked, tm1)
        | some preds => (checkPredsComplete tm1.tasks preds, tm1)
  | (.err m, tm1) => (.err m, tm1)
  | (.panicked, tm1) => (.panicked, tm1)
  | (.fuelOut, tm1) => (.fuelOut, tm1)

/-- The key loop of the closure-based `get_active_tasks`: keep each key
whose task `is_task_active` reports active. -/
def dGetActiveGo : DTaskManager → List Nat → List DTask →
    RRes (List DTask) × DTaskManager
  | tm, [], acc => (.ok acc, tm)
  | tm, tid :: rest, acc =>
    match tm.is_task_active tid with
    | (.ok true, tm1) =>
      match lookupA tm1.tasks tid with
      | none => (.panicked, tm1)
      | some t => dGetActiveGo tm1 rest (acc ++ [t])
    | (.ok false, tm1) => dGetActiveGo tm1 rest acc
    | (.err m, tm1) => (.err m, tm1)
    | (.panicked, tm1) => (.panicked, tm1)
    | (.fuelOut, tm1) => (.fuelOut, tm1)

/-- `lib copy.rs` `get_active_tasks`: rebuild the cache, then filter every
key of the task map through `is_task_active`. -/
def DTaskManager.get_active_tasks (tm : DTaskManager) :
    RRes (List DTask) × DTaskManager :=
  match tm.build_dependency_cache with
  | (.ok _, tm1) => dGetActiveGo tm1 (keysA tm1.tasks) []
  | (.err m, tm1) => (.err m, tm1)
  | (.panicked, tm1) => (.panicked, tm1)
  | (.fuelOut, tm1) => (.fuelOut, tm1)

/-- The parent task of the C1 closure counterexample: incomplete, with the
incomplete subtask 2 and no predecessors. -/
def c1dP : DTask :=
  { id := 1, text := "P", completed := false, ordered := true,
    subtasks := [2], predecessors := [], parent := none }

/-- The child task of the C1 closure counterexample: incomplete. -/
def c1dS : DTask :=
  { id := 2, text := "S", completed := false, ordered := true,
    subtasks := [], predecessors := [], parent := some 1 }

/-- The dependency-aware manager of the C1 closure counterexample. -/
def c1dTM : DTaskManager :=
  { tasks := [(1, c1dP), (2, c1dS)], next_id := 3,
    dependency_cache := [], cache_dirty := true }

/-- C1 counterexample: in the closure-based resolver the task map's
closures never mention subtasks, so task 1 — though its subtask 2 is
present and incomplete — is returned by the activity query (indeed it is
the whole result).  The claim's "under both resolver strategies" is
therefore false as stated. -/
theorem closure_active_includes_blocked_parent :
    2 ∈ c1dP.subtasks ∧ lookupA c1dTM.tasks 2 = some c1dS ∧
    c1dS.completed = false ∧
    (c1dTM.get_active_tasks).1 = .ok [c1dP] := by
  refine ⟨by decide, by decide, by decide, ?_⟩
  rfl

/-- C5: on a present parent (and a fresh id, as the monotone counter
guarantees), `add_subtask` creates exactly the child the claim describes:
`ordered` inherited from the parent, parent back-reference set, the
predecessor list holding the previously-last child precisely when the
parent is ordered and had a child, followed by all of the parent's own
predecessors; the new id is appended at the end of the parent's child
list, and no other task changes. -/
theorem add_subtask_inherits_order_and_predecessors
    (tm : DTaskManager) (pid : Nat) (text : String) (p : DTask)
    (hp : lookupA tm.tasks pid = some p)
    (hfresh : lookupA tm.tasks tm.next_id = none) :
    tm.add_subtask pid text =
      (.ok tm.next_id,
       { tasks :=
           insertA (insertA tm.tasks pid { p with subtasks := p.subtasks ++ [tm.next_id] })
             tm.next_id
             { id := tm.next_id, text := text, completed := false,
               ordered := p.ordered, subtasks := [],
               predecessors :=
                 (if p.ordered then p.subtasks.getLast?.toList else []) ++
                   p.predecessors,
               parent := some pid },
         next_id := tm.next_id + 1,
         dependency_cache := tm.dependency_cache,
         cache_dirty := true }) ∧
    pid ≠ tm.next_id ∧
    (∀ sub2, sub2 = (lookupA (tm.add_subtask pid text).2.tasks tm.next_id).getD (DTask.new 0 "" true) →
      sub2.ordered = p.ordered ∧ sub2.parent = some pid ∧
      sub2.predecessors =
        (if p.ordered then p.subtasks.getLast?.toList else []) ++
          p.predecessors) ∧
    lookupA (tm.add_subtask pid text).2.tasks pid =
      some { p with subtasks := p.subtasks ++ [tm.next_id] } ∧
    (∀ k, k ≠ pid → k ≠ tm.next_id →
      lookupA (tm.add_subtask pid text).2.tasks k = lookupA tm.tasks k) := by
  have hne : pid ≠ tm.next_id := by
    intro h
    rw [h, hfresh] at hp
    cases hp
  have heq : tm.add_subtask pid text =
      (.ok tm.next_id,
       { tasks :=
           insertA (insertA tm.tasks pid { p with subtasks := p.subtasks ++ [tm.next_id] })
             tm.next_id
             { id := tm.next_id, text := text, completed := false,
               ordered := p.ordered, subtasks := [],
               predecessors :=
                 (if p.ordered then p.subtasks.getLast?.toList else []) ++
                   p.predecessors,
               parent := some pid },
         next_id := tm.next_id + 1,
         dependency_cache := tm.dependency_cache,
         cache_dirty := true }) := by
    rw [DTaskManager.add_subtask]
    dsimp only
    rw [hp]
    rfl
  refine ⟨heq, hne, ?_, ?_, ?_⟩
  · intro sub2 hsub2
    rw [heq] at hsub2
    dsimp only at hsub2
    rw [lookupA_insertA_self] at hsub2
    rw [hsub2]
    exact ⟨rfl, rfl, rfl⟩
  · rw [heq]
    dsimp only
    rw [lookupA_insertA_ne _ _ hne, lookupA_insertA_self]
  · intro k hk1 hk2
    rw [heq]
    dsimp only
    rw [lookupA_insertA_ne _ _ hk2, lookupA_insertA_ne _ _ hk1]

/-- The manager of the C5 witness: ordered parent 1 with one child 2,
itself carrying the cross predecessor 9. -/
def c5TM : DTaskManager :=
  { tasks :=
      [(1, { id := 1, text := "P", completed := false, ordered := true,
             subtasks := [2], predecessors := [9], parent := none }),
       (2, { id := 2, text := "a", completed := false, ordered := true,
             subtasks := [], predecessors := [], parent := some 1 })],
    next_id := 3, dependency_cache := [], cache_dirty := false }

/-- Witness for C5 at a concrete store: the new child of the ordered
parent gets predecessors `[2, 9]` — the previously-last child, then the
parent's own predecessor. -/
theorem add_subtask_inherits_order_and_predecessors_witness :
    (lookupA c5TM.tasks 1 =
      some { id := 1, text := "P", completed := false, ordered := true,
             subtasks := [2], predecessors := [9], parent := none } ∧
     lookupA c5TM.tasks c5TM.next_id = none) ∧
    lookupA (c5TM.add_subtask 1 "b").2.tasks 3 =
      some { id := 3, text := "b", completed := false, ordered := true,
             subtasks := [], predecessors := [2, 9], parent := some 1 } ∧
    lookupA (c5TM.add_subtask 1 "b").2.tasks 1 =
      some { id := 1, text := "P", completed := false, ordered := true,
             subtasks := [2, 3], predecessors := [9], parent := none } := by
  refine ⟨⟨by decide, by decide⟩, ?_, ?_⟩
  · have h := (add_subtask_inherits_order_and_predecessors c5TM 1 "b"
      { id := 1, text := "P", completed := false, ordered := true,
        subtasks := [2], predecessors := [9], parent := none }
      (by decide) (by decide)).1
    rw [h]
    decide
  · have h := (add_subtask_inherits_order_and_predecessors c5TM 1 "b"
      { id := 1, text := "P", completed := false, ordered := true,
        subtasks := [2], predecessors := [9], parent := none }
      (by decide) (by decide)).2.2.2.1
    rw [h]
    decide

/-- The store of the C8 failing input: task 1's predecessor list holds the
dangling id 2. -/
def c8TM : DTaskManager :=
  { tasks :=
      [(1, { id := 1, text := "T", completed := false, ordered := true,
             subtasks := [], predecessors := [2], parent := none })],
    next_id := 3, dependency_cache := [], cache_dirty := true }

/-- C8 evaluated at the failing input: with a dangling predecessor id in
the store, the closure build — and with it every activity query — panics
(`unwrap` on the missing id in `collect_all_predecessors`) instead of
returning normally and excluding the task, contradicting the claim. -/
theorem dangling_predecessor_panics :
    lookupA c8TM.tasks 2 = none ∧
    2 ∈ (match lookupA c8TM.tasks 1 with
         | some t => t.predecessors
         | none => []) ∧
    (c8TM.build_dependency_cache).1 = RRes.panicked ∧
    (c8TM.is_task_active 1).1 = RRes.panicked ∧
    (c8TM.get_active_tasks).1 = RRes.panicked := by
  refine ⟨by decide, by decide, rfl, rfl, rfl⟩

/-- How many universe ids a closure computation may still visit. -/
def freshCount (map : List (Nat × DTask)) (v : List Nat) : Nat :=
  ((idUniverse map).filter (fun x => decide (x ∉ v))).length

theorem filter_sublist_of_imp {l : List Nat} {p q : Nat → Bool}
    (h : ∀ x, p x = true → q x = true) :
    (l.filter p).Sublist (l.filter q) := by
  induction l with
  | nil => simp
  | cons a l ih =>
    by_cases hpa : p a = true
    · rw [List.filter_cons_of_pos hpa, List.filter_cons_of_pos (h a hpa)]
      exact ih.cons₂ a
    · rw [List.filter_cons_of_neg (by simpa using hpa)]
      by_cases hqa : q a = true
      · rw [List.filter_cons_of_pos hqa]
        exact ih.cons a
      · rw [List.filter_cons_of_neg (by simpa using hqa)]
        exact ih

theorem freshCount_mono {map : List (Nat × DTask)} {v v2 : List Nat}
    (h : v ⊆ v2) : freshCount map v2 ≤ freshCount map v := by
  apply List.Sublist.length_le
  apply filter_sublist_of_imp
  intro x hx
  simp only [decide_eq_true_eq] at hx ⊢
  exact fun hxv => hx (h hxv)

theorem freshCount_strict {map : List (Nat × DTask)} {v : List Nat}
    {tid : Nat} (htid : tid ∈ idUniverse map) (hv : tid ∉ v) :
    freshCount map (v ++ [tid]) < freshCount map v := by
  have hsub : ((idUniverse map).filter
      (fun x => decide (x ∉ v ++ [tid]))).Sublist
      ((idUniverse map).filter (fun x => decide (x ∉ v))) := by
    apply filter_sublist_of_imp
    intro x hx
    simp only [decide_eq_true_eq, List.mem_append, List.mem_singleton] at hx ⊢
    exact fun hxv => hx (Or.inl hxv)
  apply Nat.lt_of_le_of_ne hsub.length_le
  intro heq
  have heql := hsub.eq_of_length heq
  have htid_in : tid ∈ (idUniverse map).filter (fun x => decide (x ∉ v)) :=
    List.mem_filter.mpr ⟨htid, by simpa using hv⟩
  rw [← heql] at htid_in
  have := (List.mem_filter.mp htid_in).2
  simp at this

theorem mem_idUniverse_of_lookup {map : List (Nat × DTask)} {tid : Nat}
    {t : DTask} (h : lookupA map tid = some t) : tid ∈ idUniverse map := by
  rw [idUniverse, List.mem_dedup]
  exact List.mem_flatMap.mpr ⟨(tid, t), mem_of_lookupA h, by simp⟩

theorem freshCount_le (map : List (Nat × DTask)) (v : List Nat) :
    freshCount map v ≤ (idUniverse map).length :=
  List.Sublist.length_le (List.filter_sublist _)

/-- Each loop of `collect_all_predecessors` over a list of ids only grows
the visited set and, with fuel exceeding the fresh count, never runs out
of the embedding's fuel. -/
theorem processPredIds_spec (map : List (Nat × DTask)) (fuel : Nat)
    (rec : Nat → PredState → RRes (List Nat) × PredState)
    (hrec : ∀ i s, s.visited ⊆ (rec i s).2.visited ∧
      (freshCount map s.visited < fuel → (rec i s).1 ≠ .fuelOut)) :
    ∀ (ids acc : List Nat) (st : PredState),
      st.visited ⊆ (processPredIds rec ids acc st).2.visited ∧
      (freshCount map st.visited < fuel →
        (processPredIds rec ids acc st).1 ≠ .fuelOut) := by
  intro ids
  induction ids with
  | nil =>
    intro acc st
    rw [processPredIds]
    refine ⟨fun x hx => hx, fun _ hcon => ?_⟩
    cases hcon
  | cons pid rest ih =>
    intro acc st
    rw [processPredIds]
    have hrs := hrec pid st
    cases hr : rec pid st with
    | mk r st2 =>
      rw [hr] at hrs
      cases r with
      | ok ps =>
        have hrest := ih (extendSet (insertSet acc pid) ps) st2
        refine ⟨hrs.1.trans hrest.1, fun hlt => ?_⟩
        exact hrest.2 (Nat.lt_of_le_of_lt (freshCount_mono hrs.1) hlt)
      | err m => exact ⟨hrs.1, fun _ hcon => by cases hcon⟩
      | panicked => exact ⟨hrs.1, fun _ hcon => by cases hcon⟩
      | fuelOut => exact ⟨hrs.1, fun hlt => (hrs.2 hlt rfl).elim⟩

/-- `collect_all_predecessors` only grows the visited set and, with fuel
exceeding the fresh count, never runs out of the embedding's fuel: each
non-trivial call inserts a fresh universe id into the visited set before
recursing, so the recursion depth is bounded. -/
theorem collect_all_predecessors_spec :
    ∀ (fuel tid : Nat) (map : List (Nat × DTask)) (st : PredState),
      st.visited ⊆ (collect_all_predecessors fuel tid map st).2.visited ∧
      (freshCount map st.visited < fuel →
        (collect_all_predecessors fuel tid map st).1 ≠ .fuelOut) := by
  intro fuel
  induction fuel with
  | zero =>
    intro tid map st
    rw [collect_all_predecessors]
    exact ⟨fun x hx => hx, fun hlt => (Nat.not_lt_zero _ hlt).elim⟩
  | succ fuel ih =>
    intro tid map st
    rw [collect_all_predecessors]
    cases hcch : lookupA st.cache tid with
    | some ps =>
      simp only [hcch]
      exact ⟨fun x hx => hx, fun _ hcon => by cases hcon⟩
    | none =>
      simp only [hcch]
      by_cases hv : tid ∈ st.visited
      · rw [if_pos hv]
        exact ⟨fun x hx => hx, fun _ hcon => by cases hcon⟩
      · rw [if_neg hv]
        have hst1 : st.visited ⊆ st.visited ++ [tid] :=
          fun x hx => List.mem_append_left _ hx
        cases hl : lookupA map tid with
        | none =>
          simp only [hl]
          exact ⟨hst1, fun _ hcon => by cases hcon⟩
        | some task =>
          simp only [hl]
          have hmem_univ : tid ∈ idUniverse map := mem_idUniverse_of_lookup hl
          have hfresh1 : ∀ st2 : PredState,
              (st.visited ++ [tid]) ⊆ st2.visited →
              freshCount map st.visited < fuel + 1 →
              freshCount map st2.visited < fuel := by
            intro st2 hsub hlt
            have h1 : freshCount map (st.visited ++ [tid]) <
                freshCount map st.visited := freshCount_strict hmem_univ hv
            have h2 : freshCount map st2.visited ≤
                freshCount map (st.visited ++ [tid]) := freshCount_mono hsub
            omega
          have hpp := processPredIds_spec map fuel
            (fun i s => collect_all_predecessors fuel i map s)
            (fun i s => ih i map s) task.predecessors []
            { st with visited := st.visited ++ [tid] }
          cases hE : processPredIds
              (fun i s => collect_all_predecessors fuel i map s)
              task.predecessors [] { st with visited := st.visited ++ [tid] } with
          | mk r2 st2 =>
            rw [hE] at hpp
            have hsub12 : (st.visited ++ [tid]) ⊆ st2.visited := hpp.1
            cases r2 with
            | ok acc1 =>
              dsimp only
              cases htp : task.parent with
              | none =>
                dsimp only
                exact ⟨hst1.trans hsub12, fun _ hcon => by cases hcon⟩
              | some pid =>
                dsimp only
                have hpc := ih pid map st2
                cases hE2 : collect_all_predecessors fuel pid map st2 with
                | mk r3 st3 =>
                  rw [hE2] at hpc
                  have hsub23 : st2.visited ⊆ st3.visited := hpc.1
                  cases r3 with
                  | ok ps3 =>
                    dsimp only
                    cases hl2 : lookupA map pid with
                    | none =>
                      dsimp only
                      exact ⟨hst1.trans (hsub12.trans hsub23),
                        fun _ hcon => by cases hcon⟩
                    | some ptask =>
                      dsimp only
                      by_cases hord : ptask.ordered = true
                      · rw [if_pos hord]
                        cases hpos : positionOf ptask.subtasks tid with
                        | none =>
                          dsimp only
                          exact ⟨hst1.trans (hsub12.trans hsub23),
                            fun _ hcon => by cases hcon⟩
                        | some pos =>
                          dsimp only
                          have hpp2 := processPredIds_spec map fuel
                            (fun i s => collect_all_predecessors fuel i map s)
                            (fun i s => ih i map s) (ptask.subtasks.take pos)
                            (extendSet (insertSet acc1 pid) ps3) st3
                          cases hE3 : processPredIds
                              (fun i s => collect_all_predecessors fuel i map s)
                              (ptask.subtasks.take pos)
                              (extendSet (insertSet acc1 pid) ps3) st3 with
                          | mk r4 st4 =>
                            rw [hE3] at hpp2
                            have hsub34 : st3.visited ⊆ st4.visited := hpp2.1
                            cases r4 with
                            | ok acc3 =>
                              dsimp only
                              exact ⟨hst1.trans (hsub12.trans
                                (hsub23.trans hsub34)), fun _ hcon => by cases hcon⟩
                            | err m =>
                              dsimp only
                              exact ⟨hst1.trans (hsub12.trans
                                (hsub23.trans hsub34)), fun _ hcon => by cases hcon⟩
                            | panicked =>
                              dsimp only
                              exact ⟨hst1.trans (hsub12.trans
                                (hsub23.trans hsub34)), fun _ hcon => by cases hcon⟩
                            | fuelOut =>
                              dsimp only
                              refine ⟨hst1.trans (hsub12.trans
                                (hsub23.trans hsub34)), fun hlt => ?_⟩
                              exact (hpp2.2 (hfresh1 st3
                                (hsub12.trans hsub23) hlt) rfl).elim
                      · rw [if_neg hord]
                        dsimp only
                        exact ⟨hst1.trans (hsub12.trans hsub23),
                          fun _ hcon => by cases hcon⟩
                  | err m =>
                    dsimp only
                    exact ⟨hst1.trans (hsub12.trans hsub23),
                      fun _ hcon => by cases hcon⟩
                  | panicked =>
                    dsimp only
                    exact ⟨hst1.trans (hsub12.trans hsub23),
                      fun _ hcon => by cases hcon⟩
                  | fuelOut =>
                    dsimp only
                    refine ⟨hst1.trans (hsub12.trans hsub23), fun hlt => ?_⟩
                    exact (hpc.2 (hfresh1 st2 hsub12 hlt) rfl).elim
            | err m =>
              dsimp only
              exact ⟨hst1.trans hsub12, fun _ hcon => by cases hcon⟩
            | panicked =>
              dsimp only
              exact ⟨hst1.trans hsub12, fun _ hcon => by cases hcon⟩
            | fuelOut =>
              dsimp only
              refine ⟨hst1.trans hsub12, fun hlt => ?_⟩
              exact (hpp.2 (hfresh1 { st with visited := st.visited ++ [tid] }
                (fun x hx => hx) hlt) rfl).elim

theorem buildCacheGo_no_fuelOut (map : List (Nat × DTask)) :
    ∀ (ids : List Nat) (cache : List (Nat × List Nat)),
      buildCacheGo map (predFuel map) ids cache ≠ .fuelOut := by
  intro ids
  induction ids with
  | nil =>
    intro cache hcon
    rw [buildCacheGo] at hcon
    cases hcon
  | cons tid rest ih =>
    intro cache hcon
    rw [buildCacheGo] at hcon
    have hspec := collect_all_predecessors_spec (predFuel map) tid map
      { visited := [], cache := cache }
    cases hE : collect_all_predecessors (predFuel map) tid map
        { visited := [], cache := cache } with
    | mk r st =>
      rw [hE] at hcon hspec
      have hlt : freshCount map
          ({ visited := [], cache := cache } : PredState).visited <
          predFuel map := by
        rw [predFuel]
        exact Nat.lt_succ_of_le (freshCount_le map _)
      cases r with
      | ok ps => exact ih _ hcon
      | err m => cases hcon
      | panicked => cases hcon
      | fuelOut => exact hspec.2 hlt rfl

/-- C9: with the fuel bound `predFuel` — one unit per id occurring
anywhere in the store, plus one — `collect_all_predecessors` never
exhausts its fuel, for every store (cyclic edges included), every starting
id, and every visited/cache state; consequently `build_dependency_cache`
never exhausts it either.  The visited set is what bounds the recursion
depth, exactly as the claim describes. -/
theorem dependency_traversal_terminates :
    (∀ (map : List (Nat × DTask)) (tid : Nat) (st : PredState),
      (collect_all_predecessors (predFuel map) tid map st).1 ≠ .fuelOut) ∧
    (∀ tm : DTaskManager, (tm.build_dependency_cache).1 ≠ .fuelOut) := by
  constructor
  · intro map tid st
    apply (collect_all_predecessors_spec (predFuel map) tid map st).2
    rw [predFuel]
    exact Nat.lt_succ_of_le (freshCount_le map _)
  · intro tm hcon
    rw [DTaskManager.build_dependency_cache] at hcon
    by_cases hd : tm.cache_dirty = false
    · rw [if_pos hd] at hcon
      cases hcon
    · rw [if_neg hd] at hcon
      cases hB : buildCacheGo tm.tasks (predFuel tm.tasks) (keysA tm.tasks) [] with
      | ok cache => rw [hB] at hcon; cases hcon
      | err m => rw [hB] at hcon; cases hcon
      | panicked => rw [hB] at hcon; cases hcon
      | fuelOut => exact buildCacheGo_no_fuelOut tm.tasks (keysA tm.tasks) [] hB

/-- The canonical sequential chain over a child list: each child paired
with its predecessor entry from the chain ([] for the first child, the
previous sibling for the others). -/
def chainPreds : List Nat → Option Nat → List (Nat × List Nat)
  | [], _ => []
  | s :: rest, prev => (s, prevEntry prev) :: chainPreds rest (some s)

/-- The same-parent filter applied by `set_ordered_subtasks` and
`remove_subtasks_predecessors` to one task's predecessor list. -/
def sameParentFilter (sp : List (Nat × Option Nat)) (ct : DTask) : List Nat :=
  ct.predecessors.filter (fun pid => decide (flatLookup sp pid ≠ ct.parent))

theorem chainPreds_lookup_ne {rest : List Nat} {s c : Nat} {prev : Option Nat}
    (h : ¬ (s = c)) :
    lookupA (chainPreds (s :: rest) prev) c =
      lookupA (chainPreds rest (some s)) c := by
  rw [chainPreds, lookupA, if_neg h]

theorem chainPreds_values_subset :
    ∀ (l : List Nat) (prev : Option Nat) (S : List Nat),
      (∀ p, prev = some p → p ∈ S) → (∀ x ∈ l, x ∈ S) →
      ∀ c v, lookupA (chainPreds l prev) c = some v → ∀ x ∈ v, x ∈ S := by
  intro l
  induction l with
  | nil =>
    intro prev S _ _ c v hv
    rw [chainPreds] at hv
    cases hv
  | cons s rest ih =>
    intro prev S hprev hl c v hv
    rw [chainPreds, lookupA] at hv
    by_cases hs : s = c
    · rw [if_pos hs] at hv
      cases hv
      intro x hx
      cases prev with
      | none => cases hx
      | some p =>
        rcases List.mem_singleton.mp hx with rfl
        exact hprev x rfl
    · rw [if_neg hs] at hv
      exact ih (some s) S
        (fun p hp => by cases hp; exact hl s (List.mem_cons_self _ _))
        (fun x hx => hl x (List.mem_cons_of_mem _ hx)) c v hv

/-- Presence of every listed subtask makes `subtask_parents` succeed, and
under the same-parent invariant its flattened lookup recognizes exactly
the siblings. -/
theorem subtaskParents_spec {map : List (Nat × DTask)} {tid : Nat} :
    ∀ {subs : List Nat},
      (∀ c ∈ subs, ∃ ct, lookupA map c = some ct ∧ ct.parent = some tid) →
      ∃ sp, subtaskParents map subs = some sp ∧
        (∀ pid ∈ subs, flatLookup sp pid = some tid) ∧
        (∀ pid, pid ∉ subs → flatLookup sp pid = none) := by
  intro subs
  induction subs with
  | nil =>
    intro _
    refine ⟨[], rfl, ?_, ?_⟩
    · intro pid hpid; cases hpid
    · intro pid _; rfl
  | cons c rest ih =>
    intro h
    obtain ⟨ct, hct, hpar⟩ := h c (List.mem_cons_self _ _)
    obtain ⟨sp, hsp, h1, h2⟩ :=
      ih (fun d hd => h d (List.mem_cons_of_mem _ hd))
    refine ⟨(c, ct.parent) :: sp, ?_, ?_, ?_⟩
    · rw [subtaskParents, hct, hsp]
      rfl
    · intro pid hpid
      rcases List.mem_cons.mp hpid with rfl | hr
      · rw [flatLookup, lookupA, if_pos rfl, hpar]
      · by_cases hcp : c = pid
        · subst hcp
          rw [flatLookup, lookupA, if_pos rfl, hpar]
        · rw [flatLookup, lookupA, if_neg hcp]
          exact h1 pid hr
    · intro pid hpid
      have hcp : ¬ (c = pid) := fun hh => hpid (hh ▸ List.mem_cons_self _ _)
      rw [flatLookup, lookupA, if_neg hcp]
      exact h2 pid (fun hr => hpid (List.mem_cons_of_mem _ hr))

/-- Characterization of `removePredsGo` on a duplicate-free list of
present subtasks: it succeeds, rewrites each listed subtask's predecessors
by the same-parent filter, and leaves every other key untouched. -/
theorem removePredsGo_spec (sp : List (Nat × Option Nat)) :
    ∀ (l : List Nat) (map : List (Nat × DTask)),
      l.Nodup →
      (∀ c ∈ l, (lookupA map c).isSome = true) →
      ∃ M, removePredsGo sp map l = (.ok (), M) ∧
        (∀ c ∈ l, ∀ ct, lookupA map c = some ct →
          lookupA M c = some { ct with predecessors := sameParentFilter sp ct }) ∧
        (∀ k, k ∉ l → lookupA M k = lookupA map k) := by
  intro l
  induction l with
  | nil =>
    intro map _ _
    exact ⟨map, rfl, fun c hc => absurd hc (List.not_mem_nil c), fun _ _ => rfl⟩
  | cons c rest ih =>
    intro map hnd hpres
    have hnd0 := List.nodup_cons.mp hnd
    cases hct : lookupA map c with
    | none =>
      have := hpres c (List.mem_cons_self _ _)
      rw [hct] at this
      cases this
    | some ct =>
      have hpres2 : ∀ d ∈ rest,
          (lookupA (insertA map c { ct with
            predecessors := sameParentFilter sp ct }) d).isSome = true := by
        intro d hd
        have hdc : d ≠ c := fun hh => hnd0.1 (hh ▸ hd)
        rw [lookupA_insertA_ne _ _ hdc]
        exact hpres d (List.mem_cons_of_mem _ hd)
      obtain ⟨M, hM, hMl, hMo⟩ := ih _ hnd0.2 hpres2
      refine ⟨M, ?_, ?_, ?_⟩
      · rw [removePredsGo, hct]
        exact hM
      · intro d hd dt hdt
        rcases List.mem_cons.mp hd with rfl | hr
        · rw [hct] at hdt
          cases hdt
          rw [hMo d hnd0.1, lookupA_insertA_self]
        · have hdc : d ≠ c := fun hh => hnd0.1 (hh ▸ hr)
          apply hMl d hr
          rw [lookupA_insertA_ne _ _ hdc]
          exact hdt
      · intro k hk
        have hkc : k ≠ c := fun hh => hk (hh ▸ List.mem_cons_self _ _)
        have hkr : k ∉ rest := fun hr => hk (List.mem_cons_of_mem _ hr)
        rw [hMo k hkr, lookupA_insertA_ne _ _ hkc]

/-- Characterization of `setOrderedGo`: like `removePredsGo_spec`, but the
rewritten predecessor list additionally gets the chain entry appended. -/
theorem setOrderedGo_spec (sp : List (Nat × Option Nat)) :
    ∀ (l : List Nat) (prev : Option Nat) (map : List (Nat × DTask)),
      l.Nodup →
      (∀ c ∈ l, (lookupA map c).isSome = true) →
      ∃ M, setOrderedGo sp map prev l = (.ok (), M) ∧
        (∀ c ∈ l, ∀ ct, lookupA map c = some ct →
          lookupA M c = some { ct with predecessors :=
            (sameParentFilter sp ct ++
              (lookupA (chainPreds l prev) c).getD []) }) ∧
        (∀ k, k ∉ l → lookupA M k = lookupA map k) := by
  intro l
  induction l with
  | nil =>
    intro prev map _ _
    exact ⟨map, rfl, fun c hc => absurd hc (List.not_mem_nil c), fun _ _ => rfl⟩
  | cons c rest ih =>
    intro prev map hnd hpres
    have hnd0 := List.nodup_cons.mp hnd
    cases hct : lookupA map c with
    | none =>
      have := hpres c (List.mem_cons_self _ _)
      rw [hct] at this
      cases this
    | some ct =>
      have hpres2 : ∀ d ∈ rest,
          (lookupA (insertA map c { ct with
            predecessors := sameParentFilter sp ct ++ prevEntry prev }) d).isSome
            = true := by
        intro d hd
        have hdc : d ≠ c := fun hh => hnd0.1 (hh ▸ hd)
        rw [lookupA_insertA_ne _ _ hdc]
        exact hpres d (List.mem_cons_of_mem _ hd)
      obtain ⟨M, hM, hMl, hMo⟩ := ih (some c) _ hnd0.2 hpres2
      refine ⟨M, ?_, ?_, ?_⟩
      · rw [setOrderedGo, hct]
        exact hM
      · intro d hd dt hdt
        rcases List.mem_cons.mp hd with rfl | hr
        · rw [hct] at hdt
          cases hdt
          rw [hMo d hnd0.1, lookupA_insertA_self, chainPreds, lookupA,
            if_pos rfl]
          rfl
        · have hdc : d ≠ c := fun hh => hnd0.1 (hh ▸ hr)
          rw [chainPreds_lookup_ne (fun hh => hdc hh.symm)]
          apply hMl d hr
          rw [lookupA_insertA_ne _ _ hdc]
          exact hdt
      · intro k hk
        have hkc : k ≠ c := fun hh => hk (hh ▸ List.mem_cons_self _ _)
        have hkr : k ∉ rest := fun hr => hk (List.mem_cons_of_mem _ hr)
        rw [hMo k hkr, lookupA_insertA_ne _ _ hkc]

theorem filter_congr_eq {l : List Nat} {p q : Nat → Bool}
    (h : ∀ x ∈ l, p x = q x) : l.filter p = l.filter q := by
  induction l with
  | nil => rfl
  | cons a rest ih =>
    rw [List.filter_cons, List.filter_cons, h a (List.mem_cons_self _ _),
      ih (fun x hx => h x (List.mem_cons_of_mem _ hx))]

theorem filter_partition_perm (l : List Nat) (p : Nat → Bool) :
    List.Perm l (l.filter p ++ l.filter (fun x => !(p x))) := by
  induction l with
  | nil => simp
  | cons a rest ih =>
    by_cases hpa : p a = true
    · rw [List.filter_cons_of_pos hpa, List.filter_cons_of_neg (by simp [hpa])]
      exact ih.cons a
    · have hpa2 : p a = false := Bool.eq_false_iff.mpr hpa
      rw [List.filter_cons_of_neg (by simp [hpa2]),
        List.filter_cons_of_pos (by simp [hpa2])]
      exact (ih.cons a).trans List.perm_middle.symm

theorem cross_filter_idem (l subs : List Nat) :
    (l.filter (fun x => decide (x ∉ subs))).filter
      (fun x => decide (x ∉ subs)) = l.filter (fun x => decide (x ∉ subs)) :=
  List.filter_eq_self.mpr (fun a ha => (List.mem_filter.mp ha).2)

theorem chain_filter_out {subs : List Nat} {c : Nat} :
    ((lookupA (chainPreds subs none) c).getD []).filter
      (fun x => decide (x ∉ subs)) = [] := by
  cases hv : lookupA (chainPreds subs none) c with
  | none => rfl
  | some v =>
    have hval := chainPreds_values_subset subs none subs
      (fun p hp => by cases hp) (fun x hx => hx) c v hv
    dsimp only [Option.getD]
    apply List.filter_eq_nil_iff.mpr
    intro a ha
    simp [hval a ha]

theorem dtask_set_ordered_self {t : DTask} {b : Bool} (h : t.ordered = b) :
    ({ t with ordered := b } : DTask) = t := by
  cases t
  simp only at h
  subst h
  rfl

theorem sameParentFilter_eq_cross {sp : List (Nat × Option Nat)}
    {subs : List Nat} {ct : DTask} {tid : Nat}
    (hpar : ct.parent = some tid)
    (hfa : ∀ pid ∈ subs, flatLookup sp pid = some tid)
    (hfb : ∀ pid, pid ∉ subs → flatLookup sp pid = none) :
    sameParentFilter sp ct =
      ct.predecessors.filter (fun x => decide (x ∉ subs)) := by
  rw [sameParentFilter]
  apply filter_congr_eq
  intro x _
  by_cases hxs : x ∈ subs
  · rw [hfa x hxs, hpar]
    simp [hxs]
  · rw [hfb x hxs, hpar]
    simp [hxs]

/-- Effect of one `toggle_ordered` call on an ordered task: the flag goes
to `false` and every direct child keeps exactly its cross-branch
predecessors (the same-parent entries are stripped). -/
theorem toggle_ordered_to_unordered
    (tm : DTaskManager) (tid : Nat) (t : DTask)
    (ht : lookupA tm.tasks tid = some t)
    (ho : t.ordered = true)
    (hnd : t.subtasks.Nodup)
    (htid : tid ∉ t.subtasks)
    (hch : ∀ c ∈ t.subtasks, ∃ ct, lookupA tm.tasks c = some ct ∧
      ct.parent = some tid) :
    ∃ tm1, tm.toggle_ordered tid = (.ok (), tm1) ∧
      tm1.next_id = tm.next_id ∧
      lookupA tm1.tasks tid = some { t with ordered := false } ∧
      (∀ c ∈ t.subtasks, ∀ ct, lookupA tm.tasks c = some ct →
        lookupA tm1.tasks c = some { ct with predecessors :=
          (ct.predecessors.filter (fun x => decide (x ∉ t.subtasks))) }) ∧
      (∀ k, k ≠ tid → k ∉ t.subtasks →
        lookupA tm1.tasks k = lookupA tm.tasks k) := by
  have hch1 : ∀ c ∈ t.subtasks,
      ∃ ct, lookupA (insertA tm.tasks tid { t with ordered := !t.ordered }) c
        = some ct ∧ ct.parent = some tid := by
    intro c hc
    obtain ⟨ct, h1, h2⟩ := hch c hc
    have hcne : c ≠ tid := fun hh => htid (hh ▸ hc)
    exact ⟨ct, by rw [lookupA_insertA_ne _ _ hcne]; exact h1, h2⟩
  obtain ⟨sp, hspeq, hfa, hfb⟩ := subtaskParents_spec hch1
  have hpres : ∀ c ∈ t.subtasks,
      (lookupA (insertA tm.tasks tid { t with ordered := !t.ordered }) c).isSome
        = true := by
    intro c hc
    obtain ⟨ct, h1, _⟩ := hch1 c hc
    rw [h1]
    rfl
  obtain ⟨M1, hrun, hl, hothers⟩ :=
    removePredsGo_spec sp t.subtasks _ hnd hpres
  refine ⟨{ tm with tasks := M1, cache_dirty := true }, ?_, rfl, ?_, ?_, ?_⟩
  · rw [DTaskManager.toggle_ordered, ht]
    dsimp only
    simp only [ho, Bool.not_true, Bool.not_false]
    rw [remove_subtasks_predecessors]
    simp only [ho, Bool.not_true, Bool.not_false] at hspeq
    rw [hspeq]
    dsimp only
    simp only [ho, Bool.not_true, Bool.not_false] at hrun
    rw [hrun]
    rfl
  · rw [hothers tid htid, lookupA_insertA_self]
    simp [ho]
  · intro c hc ct hct
    have hcne : c ≠ tid := fun hh => htid (hh ▸ hc)
    have hct1 : lookupA (insertA tm.tasks tid { t with ordered := !t.ordered }) c
        = some ct := by
      rw [lookupA_insertA_ne _ _ hcne]
      exact hct
    have := hl c hc ct hct1
    rw [this]
    obtain ⟨ct2, h1, h2⟩ := hch c hc
    rw [hct] at h1
    cases h1
    rw [sameParentFilter_eq_cross h2 hfa hfb]
  · intro k hk1 hk2
    rw [hothers k hk2, lookupA_insertA_ne _ _ hk1]

/-- Effect of one `toggle_ordered` call on an unordered task: the flag
goes to `true` and every direct child's predecessors become its
cross-branch entries followed by its chain entry. -/
theorem toggle_ordered_to_ordered
    (tm : DTaskManager) (tid : Nat) (t : DTask)
    (ht : lookupA tm.tasks tid = some t)
    (ho : t.ordered = false)
    (hnd : t.subtasks.Nodup)
    (htid : tid ∉ t.subtasks)
    (hch : ∀ c ∈ t.subtasks, ∃ ct, lookupA tm.tasks c = some ct ∧
      ct.parent = some tid) :
    ∃ tm1, tm.toggle_ordered tid = (.ok (), tm1) ∧
      tm1.next_id = tm.next_id ∧
      lookupA tm1.tasks tid = some { t with ordered := true } ∧
      (∀ c ∈ t.subtasks, ∀ ct, lookupA tm.tasks c = some ct →
        lookupA tm1.tasks c = some { ct with predecessors :=
          (ct.predecessors.filter (fun x => decide (x ∉ t.subtasks)) ++
            (lookupA (chainPreds t.subtasks none) c).getD []) }) ∧
      (∀ k, k ≠ tid → k ∉ t.subtasks →
        lookupA tm1.tasks k = lookupA tm.tasks k) := by
  have hch1 : ∀ c ∈ t.subtasks,
      ∃ ct, lookupA (insertA tm.tasks tid { t with ordered := !t.ordered }) c
        = some ct ∧ ct.parent = some tid := by
    intro c hc
    obtain ⟨ct, h1, h2⟩ := hch c hc
    have hcne : c ≠ tid := fun hh => htid (hh ▸ hc)
    exact ⟨ct, by rw [lookupA_insertA_ne _ _ hcne]; exact h1, h2⟩
  obtain ⟨sp, hspeq, hfa, hfb⟩ := subtaskParents_spec hch1
  have hpres : ∀ c ∈ t.subtasks,
      (lookupA (insertA tm.tasks tid { t with ordered := !t.ordered }) c).isSome
        = true := by
    intro c hc
    obtain ⟨ct, h1, _⟩ := hch1 c hc
    rw [h1]
    rfl
  obtain ⟨M1, hrun, hl, hothers⟩ :=
    setOrderedGo_spec sp t.subtasks none _ hnd hpres
  refine ⟨{ tm with tasks := M1, cache_dirty := true }, ?_, rfl, ?_, ?_, ?_⟩
  · rw [DTaskManager.toggle_ordered, ht]
    dsimp only
    simp only [ho, Bool.not_true, Bool.not_false]
    rw [set_ordered_subtasks]
    simp only [ho, Bool.not_true, Bool.not_false] at hspeq
    rw [hspeq]
    dsimp only
    simp only [ho, Bool.not_true, Bool.not_false] at hrun
    rw [hrun]
    rfl
  · rw [hothers tid htid, lookupA_insertA_self]
    simp [ho]
  · intro c hc ct hct
    have hcne : c ≠ tid := fun hh => htid (hh ▸ hc)
    have hct1 : lookupA (insertA tm.tasks tid { t with ordered := !t.ordered }) c
        = some ct := by
      rw [lookupA_insertA_ne _ _ hcne]
      exact hct
    have := hl c hc ct hct1
    rw [this]
    obtain ⟨ct2, h1, h2⟩ := hch c hc
    rw [hct] at h1
    cases h1
    rw [sameParentFilter_eq_cross h2 hfa hfb]
  · intro k hk1 hk2
    rw [hothers k hk2, lookupA_insertA_ne _ _ hk1]

/-- C6: toggling `ordered` twice restores each direct child's predecessor
list to its original contents (up to order; exactly, when the task started
unordered), provided the same-parent entries were canonical for the
current flag: the sequential chain induced by the child order when
ordered, none when unordered.  Each individual toggle leaves the
cross-branch entries — predecessors outside the child set — unchanged, and
tasks other than T and its children are never touched. -/
theorem toggle_ordered_twice_restores
    (tm : DTaskManager) (tid : Nat) (t : DTask)
    (ht : lookupA tm.tasks tid = some t)
    (hnd : t.subtasks.Nodup)
    (htid : tid ∉ t.subtasks)
    (hch : ∀ c ∈ t.subtasks, ∃ ct, lookupA tm.tasks c = some ct ∧
      ct.parent = some tid)
    (hcanon : ∀ c ∈ t.subtasks, ∀ ct, lookupA tm.tasks c = some ct →
      ct.predecessors.filter (fun x => decide (x ∈ t.subtasks)) =
        (if t.ordered = true
         then (lookupA (chainPreds t.subtasks none) c).getD []
         else [])) :
    ∃ tm1 tm2,
      tm.toggle_ordered tid = (.ok (), tm1) ∧
      tm1.toggle_ordered tid = (.ok (), tm2) ∧
      lookupA tm2.tasks tid = some t ∧
      (∀ c ∈ t.subtasks, ∀ ct, lookupA tm.tasks c = some ct →
        (∃ ct1, lookupA tm1.tasks c = some ct1 ∧
          ct1.predecessors.filter (fun x => decide (x ∉ t.subtasks)) =
            ct.predecessors.filter (fun x => decide (x ∉ t.subtasks))) ∧
        (∃ ct2, lookupA tm2.tasks c = some ct2 ∧
          List.Perm ct2.predecessors ct.predecessors ∧
          ct2.predecessors.filter (fun x => decide (x ∉ t.subtasks)) =
            ct.predecessors.filter (fun x => decide (x ∉ t.subtasks)))) ∧
      (∀ k, k ≠ tid → k ∉ t.subtasks →
        lookupA tm2.tasks k = lookupA tm.tasks k) := by
  by_cases ho : t.ordered = true
  · obtain ⟨tm1, hrun1, _, htid1, hc1, ho1⟩ :=
      toggle_ordered_to_unordered tm tid t ht ho hnd htid hch
    have hch2 : ∀ c ∈ ({ t with ordered := false } : DTask).subtasks,
        ∃ ct, lookupA tm1.tasks c = some ct ∧ ct.parent = some tid := by
      intro c hc
      obtain ⟨ct, h1, h2⟩ := hch c hc
      exact ⟨_, hc1 c hc ct h1, h2⟩
    obtain ⟨tm2, hrun2, _, htid2, hc2, ho2⟩ :=
      toggle_ordered_to_ordered tm1 tid { t with ordered := false } htid1 rfl
        hnd htid hch2
    refine ⟨tm1, tm2, hrun1, hrun2, ?_, ?_, ?_⟩
    · rw [htid2]
      exact congrArg some (dtask_set_ordered_self ho)
    · intro c hc ct hct
      have hct1 := hc1 c hc ct hct
      have hct2 := hc2 c hc _ hct1
      constructor
      · exact ⟨_, hct1, cross_filter_idem _ _⟩
      · refine ⟨_, hct2, ?_, ?_⟩
        · dsimp only
          rw [cross_filter_idem]
          have hsplit :
              List.Perm ct.predecessors
                (ct.predecessors.filter (fun x => decide (x ∈ t.subtasks)) ++
                  ct.predecessors.filter (fun x => decide (x ∉ t.subtasks))) := by
            have hbr : ct.predecessors.filter
                (fun x => !(decide (x ∈ t.subtasks))) =
                ct.predecessors.filter (fun x => decide (x ∉ t.subtasks)) :=
              filter_congr_eq (fun x _ => decide_not.symm)
            have := filter_partition_perm ct.predecessors
              (fun x => decide (x ∈ t.subtasks))
            rw [hbr] at this
            exact this
          have hcanonc := hcanon c hc ct hct
          rw [if_pos ho] at hcanonc
          rw [hcanonc] at hsplit
          exact List.perm_append_comm.trans hsplit.symm
        · dsimp only
          rw [cross_filter_idem, List.filter_append, cross_filter_idem,
            chain_filter_out, List.append_nil]
    · intro k hk1 hk2
      rw [ho2 k hk1 hk2, ho1 k hk1 hk2]
  · have ho2 : t.ordered = false := Bool.eq_false_iff.mpr ho
    obtain ⟨tm1, hrun1, _, htid1, hc1, hoth1⟩ :=
      toggle_ordered_to_ordered tm tid t ht ho2 hnd htid hch
    have hch2 : ∀ c ∈ ({ t with ordered := true } : DTask).subtasks,
        ∃ ct, lookupA tm1.tasks c = some ct ∧ ct.parent = some tid := by
      intro c hc
      obtain ⟨ct, h1, h2⟩ := hch c hc
      exact ⟨_, hc1 c hc ct h1, h2⟩
    obtain ⟨tm2, hrun2, _, htid2, hc2, hoth2⟩ :=
      toggle_ordered_to_unordered tm1 tid { t with ordered := true } htid1 rfl
        hnd htid hch2
    refine ⟨tm1, tm2, hrun1, hrun2, ?_, ?_, ?_⟩
    · rw [htid2]
      exact congrArg some (dtask_set_ordered_self ho2)
    · intro c hc ct hct
      have hcanonc := hcanon c hc ct hct
      rw [if_neg (by rw [ho2]; exact Bool.false_ne_true)] at hcanonc
      have hcross_all : ct.predecessors.filter
          (fun x => decide (x ∉ t.subtasks)) = ct.predecessors := by
        apply List.filter_eq_self.mpr
        intro a ha
        have := List.filter_eq_nil_iff.mp hcanonc a ha
        simpa using this
      have hct1 := hc1 c hc ct hct
      have hct2 := hc2 c hc _ hct1
      constructor
      · refine ⟨_, hct1, ?_⟩
        dsimp only
        rw [List.filter_append, cross_filter_idem, chain_filter_out,
          List.append_nil]
      · refine ⟨_, hct2, ?_, ?_⟩
        · dsimp only
          rw [List.filter_append, cross_filter_idem, chain_filter_out,
            List.append_nil, hcross_all]
        · dsimp only
          rw [List.filter_append, cross_filter_idem, chain_filter_out,
            List.append_nil, cross_filter_idem, hcross_all]
    · intro k hk1 hk2
      rw [hoth2 k hk1 hk2, hoth1 k hk1 hk2]

/-- Ordered parent of the C6 witness. -/
def c6T : DTask :=
  { id := 1, text := "T", completed := false, ordered := true,
    subtasks := [2, 3], predecessors := [], parent := none }

/-- First child of the C6 witness (no predecessors). -/
def c6C2 : DTask :=
  { id := 2, text := "a", completed := false, ordered := true,
    subtasks := [], predecessors := [], parent := some 1 }

/-- Second child of the C6 witness: chain entry 2 plus cross entry 10. -/
def c6C3 : DTask :=
  { id := 3, text := "b", completed := false, ordered := true,
    subtasks := [], predecessors := [2, 10], parent := some 1 }

/-- The dependency-aware manager of the C6 witness. -/
def c6TM : DTaskManager :=
  { tasks := [(1, c6T), (2, c6C2), (3, c6C3)], next_id := 4,
    dependency_cache := [], cache_dirty := false }

/-- Witness for C6 at a concrete store. -/
theorem toggle_ordered_twice_restores_witness :
    (lookupA c6TM.tasks 1 = some c6T ∧ c6T.subtasks.Nodup ∧
      1 ∉ c6T.subtasks) ∧
    ∃ tm1 tm2,
      c6TM.toggle_ordered 1 = (.ok (), tm1) ∧
      tm1.toggle_ordered 1 = (.ok (), tm2) ∧
      lookupA tm2.tasks 1 = some c6T ∧
      (∀ c ∈ c6T.subtasks, ∀ ct, lookupA c6TM.tasks c = some ct →
        (∃ ct1, lookupA tm1.tasks c = some ct1 ∧
          ct1.predecessors.filter (fun x => decide (x ∉ c6T.subtasks)) =
            ct.predecessors.filter (fun x => decide (x ∉ c6T.subtasks))) ∧
        (∃ ct2, lookupA tm2.tasks c = some ct2 ∧
          List.Perm ct2.predecessors ct.predecessors ∧
          ct2.predecessors.filter (fun x => decide (x ∉ c6T.subtasks)) =
            ct.predecessors.filter (fun x => decide (x ∉ c6T.subtasks)))) ∧
      (∀ k, k ≠ 1 → k ∉ c6T.subtasks →
        lookupA tm2.tasks k = lookupA c6TM.tasks k) :=
  ⟨⟨by decide, by decide, by decide⟩,
   toggle_ordered_twice_restores c6TM 1 c6T (by decide) (by decide)
     (by decide)
     (by
       intro c hc
       have hc2 : c ∈ [2, 3] := hc
       rcases List.mem_cons.mp hc2 with rfl | hc3
       · exact ⟨c6C2, rfl, rfl⟩
       rcases List.mem_cons.mp hc3 with rfl | hc4
       · exact ⟨c6C3, rfl, rfl⟩
       cases hc4)
     (by
       intro c hc ct hct
       have hc2 : c ∈ [2, 3] := hc
       rcases List.mem_cons.mp hc2 with rfl | hc3
       · have hcc : some ct = some c6C2 := hct.symm.trans (by rfl)
         cases Option.some.inj hcc
         decide
       rcases List.mem_cons.mp hc3 with rfl | hc4
       · have hcc : some ct = some c6C3 := hct.symm.trans (by rfl)
         cases Option.some.inj hcc
         decide
       cases hc4)⟩

/-- The child loop of `remove_task_recursive`: remove each subtask's
subtree in order, accumulating the removal count and threading the store
state; an error propagates (leaving earlier removals applied, as in the
code). -/
def remove_list (rec : Nat → List (Nat × Task) → List Nat →
    RRes Nat × List (Nat × Task) × List Nat) :
    List Nat → Nat → List (Nat × Task) → List Nat →
      RRes Nat × List (Nat × Task) × List Nat
  | [], count, map, roots => (.ok count, map, roots)
  | sid :: rest, count, map, roots =>
    match rec sid map roots with
    | (.ok c, map2, roots2) => remove_list rec rest (count + c) map2 roots2
    | (.err m, map2, roots2) => (.err m, map2, roots2)
    | (.panicked, map2, roots2) => (.panicked, map2, roots2)
    | (.fuelOut, map2, roots2) => (.fuelOut, map2, roots2)

/-- `core/task_manager.rs` `remove_task_recursive` (fuel-indexed embedding
of the heap recursion): a missing id is `Err`; otherwise remove every
subtask's subtree (counting from 1 for the task itself), then remove the
task from the map and erase the first occurrence of its id from the root
list. -/
def remove_task_recursive :
    Nat → Nat → List (Nat × Task) → List Nat →
      RRes Nat × List (Nat × Task) × List Nat
  | 0, _, map, roots => (.fuelOut, map, roots)
  | fuel + 1, tid, map, roots =>
    match lookupA map tid with
    | none => (.err s!"Task with id: {tid} not found", map, roots)
    | some t =>
      match remove_list (fun i m r => remove_task_recursive fuel i m r)
          t.subtasks 1 map roots with
      | (.ok c, map2, roots2) => (.ok c, eraseA map2 tid, roots2.erase tid)
      | (.err m, map2, roots2) => (.err m, map2, roots2)
      | (.panicked, map2, roots2) => (.panicked, map2, roots2)
      | (.fuelOut, map2, roots2) => (.fuelOut, map2, roots2)

/-- The public removal operation on the tree-walk manager, with fuel
dominating the recursion depth of any forest-shaped store. -/
def TaskManager.remove_task (tm : TaskManager) (tid : Nat) :
    RRes Nat × TaskManager :=
  match remove_task_recursive (tm.tasks.length + 1) tid tm.tasks
      tm.root_tasks with
  | (r, map2, roots2) =>
    (r, { tm with tasks := map2, root_tasks := roots2 })

/-- `Desc map a b`: the task id `b` lies in the subtree of the task id `a`
(reflexive), following subtask edges through present tasks. -/
inductive Desc (map : List (Nat × Task)) : Nat → Nat → Prop
  | refl (a : Nat) : Desc map a a
  | step (a : Nat) (t : Task) (c b : Nat) :
      lookupA map a = some t → c ∈ t.subtasks → Desc map c b → Desc map a b

/-- The forest invariant of the tree-walk store, as the spec states it:
unique keys, every child id present with the right parent back-reference,
duplicate-free child lists, roots parentless, and an acyclicity witness (a
rank decreasing along child edges and bounded by the store size). -/
structure StoreInv (map : List (Nat × Task)) (roots : List Nat) : Prop where
  nodup_keys : (keysA map).Nodup
  children_present : ∀ p ∈ map, ∀ c ∈ (p.2 : Task).subtasks,
    ∃ ct, lookupA map c = some ct ∧ ct.parent = some p.1
  children_nodup : ∀ p ∈ map, (p.2 : Task).subtasks.Nodup
  roots_parent_none : ∀ r ∈ roots, ∀ t, lookupA map r = some t →
    t.parent = none
  ranked : ∃ rank : Nat → Nat,
    (∀ p ∈ map, ∀ c ∈ (p.2 : Task).subtasks, rank c < rank p.1) ∧
    (∀ p ∈ map, rank p.1 < map.length)

theorem lookupA_of_mem_nodup {α : Type} {m : List (Nat × α)} {k : Nat}
    {v : α} (hn : (keysA m).Nodup) (h : (k, v) ∈ m) :
    lookupA m k = some v := by
  induction m with
  | nil => cases h
  | cons p rest ih =>
    have hncons : (p.1 :: keysA rest).Nodup := by simpa [keysA] using hn
    have hn0 := List.nodup_cons.mp hncons
    rcases List.mem_cons.mp h with rfl | hr
    · rw [lookupA]
      simp
    · have hkm : k ∈ keysA rest := by
        have := List.mem_map_of_mem Prod.fst hr
        simpa [keysA] using this
      have hne : ¬ (p.1 = k) := fun hh => hn0.1 (hh ▸ hkm)
      rw [lookupA, if_neg hne]
      exact ih hn0.2 hr

theorem desc_rank {map : List (Nat × Task)} {rank : Nat → Nat}
    (hrk : ∀ k t, lookupA map k = some t → ∀ c ∈ t.subtasks,
      rank c < rank k) :
    ∀ {a b : Nat}, Desc map a b → a = b ∨ rank b < rank a := by
  intro a b h
  induction h with
  | refl a => exact Or.inl rfl
  | step a t c b hlook hmem _ ih =>
    have hc : rank c < rank a := hrk a t hlook c hmem
    rcases ih with rfl | hb
    · exact Or.inr hc
    · exact Or.inr (hb.trans hc)

theorem desc_last_edge {map : List (Nat × Task)} :
    ∀ {a b : Nat}, Desc map a b →
      a = b ∨ ∃ p tp, Desc map a p ∧ lookupA map p = some tp ∧
        b ∈ tp.subtasks := by
  intro a b h
  induction h with
  | refl a => exact Or.inl rfl
  | step a t c b hlook hmem _ ih =>
    rcases ih with rfl | ⟨p, tp, hdesc, hlp, hbm⟩
    · exact Or.inr ⟨a, t, Desc.refl a, hlook, hmem⟩
    · exact Or.inr ⟨p, tp, Desc.step a t c p hlook hmem hdesc, hlp, hbm⟩

theorem desc_first_edge {map : List (Nat × Task)} {a b : Nat}
    (h : Desc map a b) (hne : a ≠ b) :
    ∃ t c, lookupA map a = some t ∧ c ∈ t.subtasks ∧ Desc map c b := by
  cases h with
  | refl => exact absurd rfl hne
  | step a2 t c b2 hlook hmem hdesc => exact ⟨t, c, hlook, hmem, hdesc⟩

theorem parent_unique {map : List (Nat × Task)}
    (hcp : ∀ k t, lookupA map k = some t → ∀ c ∈ t.subtasks,
      ∃ ct, lookupA map c = some ct ∧ ct.parent = some k)
    {k1 k2 c : Nat} {t1 t2 : Task}
    (h1 : lookupA map k1 = some t1) (hm1 : c ∈ t1.subtasks)
    (h2 : lookupA map k2 = some t2) (hm2 : c ∈ t2.subtasks) : k1 = k2 := by
  obtain ⟨ct1, hl1, hp1⟩ := hcp k1 t1 h1 c hm1
  obtain ⟨ct2, hl2, hp2⟩ := hcp k2 t2 h2 c hm2
  rw [hl1] at hl2
  cases hl2
  rw [hp1] at hp2
  exact Option.some.inj hp2

theorem desc_total {map : List (Nat × Task)}
    (hcp : ∀ k t, lookupA map k = some t → ∀ c ∈ t.subtasks,
      ∃ ct, lookupA map c = some ct ∧ ct.parent = some k) :
    ∀ {a d : Nat}, Desc map a d → ∀ {b : Nat}, Desc map b d →
      Desc map a b ∨ Desc map b a := by
  intro a d h
  induction h with
  | refl a => intro b hb; exact Or.inr hb
  | step a t c d hlook hmem _ ih =>
    intro b hb
    rcases ih hb with hcb | hbc
    · exact Or.inl (Desc.step a t c b hlook hmem hcb)
    · rcases desc_last_edge hbc with rfl | ⟨p, tp, hbp, hlp, hcm⟩
      · exact Or.inl (Desc.step a t b b hlook hmem (Desc.refl b))
      · have hpa : p = a := parent_unique hcp hlp hcm hlook hmem
        exact Or.inr (hpa ▸ hbp)

theorem sibling_subtree_one_sided {map : List (Nat × Task)}
    {rank : Nat → Nat}
    (hcp : ∀ k t, lookupA map k = some t → ∀ c ∈ t.subtasks,
      ∃ ct, lookupA map c = some ct ∧ ct.parent = some k)
    (hrk : ∀ k t, lookupA map k = some t → ∀ c ∈ t.subtasks,
      rank c < rank k)
    {k c1 c2 : Nat} {t : Task}
    (hlook : lookupA map k = some t)
    (hm1 : c1 ∈ t.subtasks) (hm2 : c2 ∈ t.subtasks) (hne : c1 ≠ c2)
    (h12 : Desc map c1 c2) : False := by
  rcases desc_last_edge h12 with rfl | ⟨p, tp, hdesc, hlp, hcm⟩
  · exact hne rfl
  · have hpk : p = k := parent_unique hcp hlp hcm hlook hm2
    subst hpk
    have h1 : rank c1 < rank p := hrk p t hlook c1 hm1
    rcases desc_rank hrk hdesc with rfl | h2
    · exact Nat.lt_irrefl _ h1
    · exact Nat.lt_irrefl _ (h1.trans h2)

theorem sibling_subtree_disjoint {map : List (Nat × Task)}
    {rank : Nat → Nat}
    (hcp : ∀ k t, lookupA map k = some t → ∀ c ∈ t.subtasks,
      ∃ ct, lookupA map c = some ct ∧ ct.parent = some k)
    (hrk : ∀ k t, lookupA map k = some t → ∀ c ∈ t.subtasks,
      rank c < rank k)
    {k c1 c2 : Nat} {t : Task}
    (hlook : lookupA map k = some t)
    (hm1 : c1 ∈ t.subtasks) (hm2 : c2 ∈ t.subtasks) (hne : c1 ≠ c2) :
    ∀ x, ¬ (Desc map c1 x ∧ Desc map c2 x) := by
  rintro x ⟨h1, h2⟩
  rcases desc_total hcp h1 h2 with h12 | h21
  · exact sibling_subtree_one_sided hcp hrk hlook hm1 hm2 hne h12
  · exact sibling_subtree_one_sided hcp hrk hlook hm2 hm1
      (fun hh => hne hh.symm) h21

theorem desc_not_root_strict {map : List (Nat × Task)} {rank : Nat → Nat}
    (hrk : ∀ k t, lookupA map k = some t → ∀ c ∈ t.subtasks,
      rank c < rank k)
    {tid c x : Nat} {t : Task}
    (hlook : lookupA map tid = some t) (hmem : c ∈ t.subtasks)
    (hdesc : Desc map c x) : x ≠ tid := by
  intro heq
  rw [heq] at hdesc
  have h1 : rank c < rank tid := hrk tid t hlook c hmem
  rcases desc_rank hrk hdesc with heq2 | h2
  · rw [heq2] at h1
    exact Nat.lt_irrefl _ h1
  · exact Nat.lt_irrefl _ (h1.trans h2)

/-- The behavior of one recursive removal at a given fuel, relative to the
original store `m0`: on an intact, root-free subtree it succeeds, removes
exactly the subtree, and erases only the removed root from the root
list. -/
def RemoveSpecAt (m0 : List (Nat × Task)) (rank : Nat → Nat)
    (fuel : Nat) : Prop :=
  ∀ (tid : Nat) (map : List (Nat × Task)) (roots : List Nat) (t0 : Task),
    lookupA m0 tid = some t0 →
    rank tid < fuel →
    (∀ x, Desc m0 tid x → lookupA map x = lookupA m0 x) →
    (∀ x, Desc m0 tid x → x ≠ tid → x ∉ roots) →
    (keysA map).Nodup →
    ∃ n map2 roots2,
      remove_task_recursive fuel tid map roots = (.ok n, map2, roots2) ∧
      (∀ k, Desc m0 tid k → lookupA map2 k = none) ∧
      (∀ k, ¬ Desc m0 tid k → lookupA map2 k = lookupA map k) ∧
      (keysA map2).Nodup ∧
      n + map2.length = map.length ∧
      roots2 = roots.erase tid

/-- The child loop removes the union of the (pairwise disjoint, intact,
root-free) sibling subtrees, adding their sizes to the count and leaving
the root list unchanged. -/
theorem remove_list_spec (m0 : List (Nat × Task)) (rank : Nat → Nat)
    (fuel : Nat) (hrec : RemoveSpecAt m0 rank fuel) :
    ∀ (sids : List Nat) (count : Nat) (map : List (Nat × Task))
      (roots : List Nat),
      (∀ s ∈ sids, ∃ ts, lookupA m0 s = some ts) →
      (∀ s ∈ sids, rank s < fuel) →
      (∀ s ∈ sids, ∀ x, Desc m0 s x → lookupA map x = lookupA m0 x) →
      (∀ s ∈ sids, ∀ x, Desc m0 s x → x ∉ roots) →
      List.Pairwise (fun u v => ∀ x, ¬ (Desc m0 u x ∧ Desc m0 v x)) sids →
      (keysA map).Nodup →
      ∃ n map2 roots2,
        remove_list (fun i m r => remove_task_recursive fuel i m r) sids
          count map roots = (.ok n, map2, roots2) ∧
        (∀ k, (∃ s ∈ sids, Desc m0 s k) → lookupA map2 k = none) ∧
        (∀ k, (∀ s ∈ sids, ¬ Desc m0 s k) →
          lookupA map2 k = lookupA map k) ∧
        (keysA map2).Nodup ∧
        n + map2.length = count + map.length ∧
        roots2 = roots := by
  intro sids
  induction sids with
  | nil =>
    intro count map roots _ _ _ _ _ hnod
    refine ⟨count, map, roots, rfl, ?_, ?_, hnod, rfl, rfl⟩
    · rintro k ⟨s, hs, _⟩
      cases hs
    · intro k _
      rfl
  | cons s rest ih =>
    intro count map roots hpres hrank hagree hroots hpair hnod
    obtain ⟨ts, hts⟩ := hpres s (List.mem_cons_self _ _)
    obtain ⟨n1, map1, roots1, hrun1, hnone1, hkeep1, hnod1, hlen1, hroots1⟩ :=
      hrec s map roots ts hts (hrank s (List.mem_cons_self _ _))
        (hagree s (List.mem_cons_self _ _))
        (fun x hx _ => hroots s (List.mem_cons_self _ _) x hx)
        hnod
    have hsnr : s ∉ roots := hroots s (List.mem_cons_self _ _) s (Desc.refl s)
    have hroots1e : roots1 = roots := by
      rw [hroots1, List.erase_of_not_mem hsnr]
    have hpair0 := List.pairwise_cons.mp hpair
    obtain ⟨n2, map2, roots2, hrun2, hnone2, hkeep2, hnod2, hlen2, hroots2⟩ :=
      ih (count + n1) map1 roots1
        (fun d hd => hpres d (List.mem_cons_of_mem _ hd))
        (fun d hd => hrank d (List.mem_cons_of_mem _ hd))
        (fun d hd x hx => by
          have hnds : ¬ Desc m0 s x := fun hds => hpair0.1 d hd x ⟨hds, hx⟩
          rw [hkeep1 x hnds]
          exact hagree d (List.mem_cons_of_mem _ hd) x hx)
        (fun d hd x hx => by
          rw [hroots1e]
          exact hroots d (List.mem_cons_of_mem _ hd) x hx)
        hpair0.2 hnod1
    refine ⟨n2, map2, roots2, ?_, ?_, ?_, hnod2, ?_, ?_⟩
    · rw [remove_list, hrun1]
      exact hrun2
    · rintro k ⟨d, hd, hdk⟩
      rcases List.mem_cons.mp hd with rfl | hdr
      · have hall : ∀ u ∈ rest, ¬ Desc m0 u k :=
          fun u hu hds => hpair0.1 u hu k ⟨hdk, hds⟩
        rw [hkeep2 k hall]
        exact hnone1 k hdk
      · exact hnone2 k ⟨d, hdr, hdk⟩
    · intro k hk
      rw [hkeep2 k (fun u hu => hk u (List.mem_cons_of_mem _ hu)),
        hkeep1 k (hk s (List.mem_cons_self _ _))]
    · omega
    · rw [hroots2, hroots1e]

/-- `remove_task_recursive`'s specification holds at every fuel, by fuel
induction: each call removes exactly the subtree of its argument. -/
theorem remove_spec_at (m0 : List (Nat × Task)) (rank : Nat → Nat)
    (hcp : ∀ k t, lookupA m0 k = some t → ∀ c ∈ t.subtasks,
      ∃ ct, lookupA m0 c = some ct ∧ ct.parent = some k)
    (hcnd : ∀ k t, lookupA m0 k = some t → t.subtasks.Nodup)
    (hrk : ∀ k t, lookupA m0 k = some t → ∀ c ∈ t.subtasks,
      rank c < rank k) :
    ∀ fuel, RemoveSpecAt m0 rank fuel := by
  intro fuel
  induction fuel with
  | zero =>
    intro tid map roots t0 _ hlt
    exact absurd hlt (Nat.not_lt_zero _)
  | succ fuel ih =>
    intro tid map roots t0 ht0 hlt hagree hroots hnod
    have hmaptid : lookupA map tid = some t0 := by
      rw [hagree tid (Desc.refl tid)]
      exact ht0
    have hkid_notid : ∀ c ∈ t0.subtasks, ∀ x, Desc m0 c x → x ≠ tid :=
      fun c hc x hx => desc_not_root_strict hrk ht0 hc hx
    have hpairwise : List.Pairwise
        (fun u v => ∀ x, ¬ (Desc m0 u x ∧ Desc m0 v x)) t0.subtasks :=
      List.Pairwise.imp_of_mem
        (fun hu hv hne => sibling_subtree_disjoint hcp hrk ht0 hu hv hne)
        (hcnd tid t0 ht0)
    obtain ⟨n1, mapC, rootsC, hrunC, hnoneC, hkeepC, hnodC, hlenC, hrootsC⟩ :=
      remove_list_spec m0 rank fuel ih t0.subtasks 1 map roots
        (fun c hc => (hcp tid t0 ht0 c hc).imp (fun ct h => h.1))
        (fun c hc => by
          have h1 := hrk tid t0 ht0 c hc
          omega)
        (fun c hc x hx => hagree x (Desc.step tid t0 c x ht0 hc hx))
        (fun c hc x hx => hroots x (Desc.step tid t0 c x ht0 hc hx)
          (hkid_notid c hc x hx))
        hpairwise hnod
    have hnotidC : ∀ c ∈ t0.subtasks, ¬ Desc m0 c tid :=
      fun c hc hd => (hkid_notid c hc tid hd) rfl
    have hmapCtid : lookupA mapC tid = some t0 := by
      rw [hkeepC tid hnotidC]
      exact hmaptid
    refine ⟨n1, eraseA mapC tid, roots.erase tid, ?_, ?_, ?_, ?_, ?_, rfl⟩
    · rw [remove_task_recursive, hmaptid]
      dsimp only
      rw [hrootsC] at hrunC
      rw [hrunC]
    · intro k hk
      by_cases hks : k = tid
      · subst hks
        exact lookupA_eraseA_self _ _
      · obtain ⟨t2, c, hlt2, hcm, hdesc⟩ :=
          desc_first_edge hk (fun hh => hks hh.symm)
        rw [ht0] at hlt2
        cases Option.some.inj hlt2
        rw [lookupA_eraseA_ne _ hks]
        exact hnoneC k ⟨c, hcm, hdesc⟩
    · intro k hk
      have hks : k ≠ tid := by
        intro hh
        apply hk
        rw [hh]
        exact Desc.refl tid
      rw [lookupA_eraseA_ne _ hks]
      exact hkeepC k (fun c hc hdc => hk (Desc.step tid t0 c k ht0 hc hdc))
    · exact nodup_keysA_eraseA _ hnodC
    · have hE := length_eraseA_present hnodC hmapCtid
      omega

/-- C7: on a store satisfying the forest invariant, removing an absent id
fails with not-found and changes nothing, while removing a present task
succeeds, removes from the store exactly the task and its descendants
(the returned count being that number, since counts and store shrinkage
balance), erases the id from the root list (a no-op when it was not a
root), and leaves the id counter alone. -/
theorem remove_task_spec (tm : TaskManager) (tid : Nat)
    (hinv : StoreInv tm.tasks tm.root_tasks) :
    (lookupA tm.tasks tid = none →
      tm.remove_task tid =
        (.err s!"Task with id: {tid} not found", tm)) ∧
    (∀ t0, lookupA tm.tasks tid = some t0 →
      ∃ n tm2, tm.remove_task tid = (.ok n, tm2) ∧
        (∀ k, lookupA tm2.tasks k = none ↔
          (lookupA tm.tasks k = none ∨ Desc tm.tasks tid k)) ∧
        n + tm2.tasks.length = tm.tasks.length ∧
        tm2.root_tasks = tm.root_tasks.erase tid ∧
        tm2.next_id = tm.next_id) := by
  constructor
  · intro h
    rw [TaskManager.remove_task, remove_task_recursive, h]
  · intro t0 ht0
    obtain ⟨rank, hrk0, hrkbound⟩ := hinv.ranked
    have hcp : ∀ k t, lookupA tm.tasks k = some t → ∀ c ∈ t.subtasks,
        ∃ ct, lookupA tm.tasks c = some ct ∧ ct.parent = some k :=
      fun k t hkt c hc =>
        hinv.children_present (k, t) (mem_of_lookupA hkt) c hc
    have hcnd : ∀ k t, lookupA tm.tasks k = some t → t.subtasks.Nodup :=
      fun k t hkt => hinv.children_nodup (k, t) (mem_of_lookupA hkt)
    have hrk : ∀ k t, lookupA tm.tasks k = some t → ∀ c ∈ t.subtasks,
        rank c < rank k :=
      fun k t hkt c hc => hrk0 (k, t) (mem_of_lookupA hkt) c hc
    have hfuel : rank tid < tm.tasks.length + 1 := by
      have h1 := hrkbound (tid, t0) (mem_of_lookupA ht0)
      dsimp only at h1
      omega
    have hrootsfree : ∀ x, Desc tm.tasks tid x → x ≠ tid →
        x ∉ tm.root_tasks := by
      intro x hdx hxne hxr
      obtain ⟨p, tp, hdp, hlp, hxm⟩ :=
        (desc_last_edge hdx).resolve_left (fun hh => hxne hh.symm)
      obtain ⟨ct, hct, hpar⟩ := hcp p tp hlp x hxm
      have hnone := hinv.roots_parent_none x hxr ct hct
      rw [hnone] at hpar
      cases hpar
    obtain ⟨n, map2, roots2, hrun, hnone, hkeep, _, hlen, hroots⟩ :=
      remove_spec_at tm.tasks rank hcp hcnd hrk (tm.tasks.length + 1) tid
        tm.tasks tm.root_tasks t0 ht0 hfuel (fun x _ => rfl) hrootsfree
        hinv.nodup_keys
    refine ⟨n, { tm with tasks := map2, root_tasks := roots2 }, ?_, ?_,
      hlen, by rw [hroots], rfl⟩
    · rw [TaskManager.remove_task, hrun]
    · intro k
      constructor
      · intro hk
        by_cases hdk : Desc tm.tasks tid k
        · exact Or.inr hdk
        · left
          rw [← hkeep k hdk]
          exact hk
      · intro hk
        rcases hk with hk | hk
        · by_cases hdk : Desc tm.tasks tid k
          · exact hnone k hdk
          · rw [hkeep k hdk]
            exact hk
        · exact hnone k hk

/-- The root task of the C7 witness: one child, id 2. -/
def c7Root : Task :=
  { id := 1, text := "root", completed := false, ordered := true,
    subtasks := [2], parent := none }

/-- The leaf task of the C7 witness. -/
def c7Leaf : Task :=
  { id := 2, text := "leaf", completed := false, ordered := true,
    subtasks := [], parent := some 1 }

/-- The tree-walk manager of the C7 witness. -/
def c7TM : TaskManager :=
  { tasks := [(1, c7Root), (2, c7Leaf)], root_tasks := [1], next_id := 3 }

/-- The forest invariant holds of the C7 witness store. -/
theorem c7TM_inv : StoreInv c7TM.tasks c7TM.root_tasks := by
  refine ⟨by decide, ?_, by decide, ?_, ⟨fun k => if k = 1 then 1 else 0,
    by decide, by decide⟩⟩
  · intro p hp c hc
    have hp2 : p ∈ [(1, c7Root), (2, c7Leaf)] := hp
    rcases List.mem_cons.mp hp2 with rfl | hp3
    · have hc2 : c ∈ [2] := hc
      rcases List.mem_cons.mp hc2 with rfl | hc3
      · exact ⟨c7Leaf, rfl, rfl⟩
      · cases hc3
    rcases List.mem_cons.mp hp3 with rfl | hp4
    · cases hc
    cases hp4
  · intro r hr t hrt
    have hr2 : r ∈ [1] := hr
    rcases List.mem_cons.mp hr2 with rfl | hr3
    · have hcc : some t = some c7Root := hrt.symm.trans (by rfl)
      cases Option.some.inj hcc.symm
      rfl
    cases hr3

/-- Witness for C7 at a concrete store: removing the root removes both
tasks, returns 2, and empties the root list. -/
theorem remove_task_spec_witness :
    lookupA c7TM.tasks 1 = some c7Root ∧
    ∃ n tm2, c7TM.remove_task 1 = (.ok n, tm2) ∧
      (∀ k, lookupA tm2.tasks k = none ↔
        (lookupA c7TM.tasks k = none ∨ Desc c7TM.tasks 1 k)) ∧
      n + tm2.tasks.length = c7TM.tasks.length ∧
      tm2.root_tasks = c7TM.root_tasks.erase 1 ∧
      tm2.next_id = c7TM.next_id :=
  ⟨by decide, (remove_task_spec c7TM 1 c7TM_inv).2 c7Root (by decide)⟩

end TheMachine
